import Mathlib

/-!
Shallow embedding of the two-player territory-capture game engine from the
Voronoi source file: the cell array built by createCells, computeLegalColors,
applyMove (recolor of owned territory followed by a breadth-first flood fill
with a visited set), handlePlayerChooseColor, the AI move-selection effect,
and the border-cell win check.  Geometry coordinates are embedded as
rationals (the source uses JS numbers; none of the verified claims depend on
floating-point rounding), colors are the literal color-name strings of the
source, and the ordered palette is carried as construction-time
configuration of the game state, as specified for the engine; the source
instantiates it with the fixed six-color PALETTE constant.
-/

/-- The two competing sides: the human player and the AI opponent. -/
inductive Side where
  | player
  | ai
deriving DecidableEq, Repr

/-- The opposing side. -/
def Side.other : Side → Side
  | .player => .ai
  | .ai => .player

/-- One cell record as built by createCells plus the isCorner marking:
stable id, site point, rendered path string, polygon ring, current display
color, neighbor indices from the Delaunay graph, and the owner. -/
structure Cell where
  id : Nat
  site : ℚ × ℚ
  path : String
  polygon : List (ℚ × ℚ)
  color : String
  neighbors : List Nat
  owner : Option Side
  isCorner : Bool
deriving DecidableEq, Repr

instance : Inhabited Cell :=
  ⟨⟨0, (0, 0), "", [], "", [], none, false⟩⟩

/-- Index into the cell array.  Out-of-range access yields the default cell
(the source would crash there; the board invariant rules it out, and the
theorems that need it carry a well-formedness hypothesis). -/
def getCell : List Cell → Nat → Cell
  | [], _ => default
  | c :: _, 0 => c
  | _ :: cs, n + 1 => getCell cs n

/-- In-place update of the cell at an index (no-op out of range). -/
def setCell : List Cell → Nat → Cell → List Cell
  | [], _, _ => []
  | _ :: cs, 0, a => a :: cs
  | c :: cs, n + 1, a => c :: setCell cs n a

/-- Mutation `next[i].color = col` of the source. -/
def setColorAt (cs : List Cell) (i : Nat) (col : String) : List Cell :=
  setCell cs i { getCell cs i with color := col }

/-- Mutation `next[i].owner = w; next[i].color = col` of the source. -/
def setOwnerColorAt (cs : List Cell) (i : Nat) (w : Side) (col : String) : List Cell :=
  setCell cs i { getCell cs i with owner := some w, color := col }

/-- Board well-formedness, as guaranteed by construction in the source:
each cell's id is its index, and every neighbor index is in range. -/
def WFCells (cs : List Cell) : Prop :=
  ∀ i, i < cs.length →
    (getCell cs i).id = i ∧ ∀ j ∈ (getCell cs i).neighbors, j < cs.length

instance (cs : List Cell) : Decidable (WFCells cs) := by
  unfold WFCells
  infer_instance

/-- The fixed six-color palette constant of the source. -/
def PALETTE : List String :=
  ["orangered", "goldenrod", "khaki", "orchid", "yellowgreen", "cadetblue"]

/-- Engine state: the mutable cell array plus the React state hooks of the
source (turn, last colors, gameOver), the two starting-cell ids, and the
ordered palette configured at construction. -/
structure GameState where
  cells : List Cell
  turn : Side
  playerLastColor : Option String
  aiLastColor : Option String
  gameOver : Option Side
  playerStartId : Option Nat
  aiStartId : Option Nat
  palette : List String
deriving DecidableEq, Repr

/-- The last color chosen by a side (playerLastColor / aiLastColor). -/
def lastColorOf (s : GameState) : Side → Option String
  | .player => s.playerLastColor
  | .ai => s.aiLastColor

/-- The starting-cell id of a side (startIds.playerStartId / aiStartId). -/
def startIdOf (s : GameState) : Side → Option Nat
  | .player => s.playerStartId
  | .ai => s.aiStartId

/-- The current color of a side's starting cell, when the start id exists
(`startId != null ? cells[startId].color : null` in the source). -/
def currentStartColor (s : GameState) (w : Side) : Option String :=
  match startIdOf s w with
  | some i => some (getCell s.cells i).color
  | none => none

/-- ownedIds of the source: ids of the cells owned by a side, in cell
array order. -/
def ownedIdsOf (cs : List Cell) (w : Side) : List Nat :=
  (cs.filter (fun c => c.owner = some w)).map (fun c => c.id)

/-- baseForbidden of computeLegalColors: the last colors of both sides that
are JS-truthy, i.e. non-null and non-empty. -/
def baseForbiddenOf (s : GameState) (w : Side) : List String :=
  (([lastColorOf s w, lastColorOf s w.other] : List (Option String)).filterMap id).filter
    (fun c => c ≠ "")

/-- The full forbidden set of computeLegalColors: on a side's first move
(lastColor unset) the current color of its starting cell is additionally
forbidden when truthy. -/
def forbiddenOf (s : GameState) (w : Side) : List String :=
  if lastColorOf s w = none then
    match currentStartColor s w with
    | some c => if c ≠ "" then baseForbiddenOf s w ++ [c] else baseForbiddenOf s w
    | none => baseForbiddenOf s w
  else baseForbiddenOf s w

/-- computeLegalColors of the source: the palette filtered by the forbidden
set. -/
def computeLegalColors (s : GameState) (w : Side) : List String :=
  s.palette.filter (fun c => ! (forbiddenOf s w).contains c)

/-- State of the flood-fill loop of applyMove: the evolving cell array, the
FIFO queue, and the visited set. -/
structure BfsState where
  cells : List Cell
  queue : List Nat
  visited : Finset Nat

/-- Processing of one neighbor nb inside the flood-fill loop: skip if
visited, otherwise mark visited; skip opponent-owned cells; recolor and
re-enqueue own cells; annex unowned cells whose current color matches. -/
def processNeighbor (w : Side) (col : String) (st : BfsState) (nb : Nat) : BfsState :=
  if nb ∈ st.visited then st
  else
    let st1 : BfsState := { st with visited := insert nb st.visited }
    match (getCell st1.cells nb).owner with
    | some o =>
      if o = w then
        { st1 with
          cells := if (getCell st1.cells nb).color ≠ col
                   then setColorAt st1.cells nb col else st1.cells,
          queue := st1.queue ++ [nb] }
      else st1
    | none =>
      if (getCell st1.cells nb).color = col then
        { st1 with
          cells := setOwnerColorAt st1.cells nb w col,
          queue := st1.queue ++ [nb] }
      else st1

/-- One iteration of the while loop: dequeue the front cell and process all
of its neighbors in order. -/
def bfsStep (w : Side) (col : String) (st : BfsState) : BfsState :=
  match st.queue with
  | [] => st
  | cid :: rest =>
    ((getCell st.cells cid).neighbors).foldl (processNeighbor w col)
      { st with queue := rest }

/-- The while loop, run with explicit fuel; the termination theorem shows
that the fuel used by applyMove always empties the queue. -/
def bfsRun (w : Side) (col : String) : Nat → BfsState → BfsState
  | 0, st => st
  | fuel + 1, st =>
    match st.queue with
    | [] => st
    | _ :: _ => bfsRun w col fuel (bfsStep w col st)

/-- All indices appearing in any neighbor list of the board. -/
def neighborUniverse (cs : List Cell) : Finset Nat :=
  ((cs.map (fun c => c.neighbors)).flatten).toFinset

/-- Fuel that provably suffices for the flood-fill loop to finish. -/
def bfsFuel (cs : List Cell) (owned : List Nat) : Nat :=
  (neighborUniverse cs).card + owned.length

/-- Recoloring of all owned cells (`owned.forEach(id => next[id].color = color)`). -/
def recolorAll (cs : List Cell) (owned : List Nat) (col : String) : List Cell :=
  owned.foldl (fun acc i => setColorAt acc i col) cs

/-- The cell-array part of applyMove: if the side owns nothing the array is
returned unchanged; otherwise owned cells are recolored and the flood fill
runs from the owned ids with the visited set initialized to them. -/
def applyMoveCells (cs : List Cell) (w : Side) (col : String) : List Cell :=
  let owned := ownedIdsOf cs w
  if owned.isEmpty then cs
  else
    (bfsRun w col (bfsFuel cs owned)
      { cells := recolorAll cs owned col
        queue := owned
        visited := owned.toFinset }).cells

/-- applyMove of the source: expand ownership for a side given a chosen
color, then record the side's last color (unconditionally). -/
def applyMove (s : GameState) (w : Side) (col : String) : GameState :=
  { s with
    cells := applyMoveCells s.cells w col
    playerLastColor := if w = .player then some col else s.playerLastColor
    aiLastColor := if w = .ai then some col else s.aiLastColor }

/-- handlePlayerChooseColor: reject unless it is the player's turn, the game
is in progress and the color is legal; on success apply the move and hand
the turn to the AI. -/
def handlePlayerChooseColor (s : GameState) (col : String) : GameState :=
  if s.turn ≠ .player ∨ s.gameOver ≠ none then s
  else if ! (computeLegalColors s .player).contains col then s
  else { applyMove s .player col with turn := .ai }

/-- The AI frontier tally for one color: over every AI-owned cell id and
each of its neighbors, count the (owned cell, neighbor) pairs whose
neighbor is not AI-owned, is unowned, and currently displays the color.
The source increments a per-color counter inside this double loop, so a
frontier cell is counted once per adjacent AI-owned cell. -/
def aiFrontierPairs (cs : List Cell) (aiOwned : List Nat) (col : String) : Nat :=
  (aiOwned.map (fun i =>
    ((getCell cs i).neighbors.filter (fun nb =>
      decide (nb ∉ aiOwned ∧ (getCell cs nb).owner = none ∧
        (getCell cs nb).color = col))).length)).sum

/-- One step of the source's maximum-search loop over the palette:
skip illegal colors; replace the best candidate on a strictly greater
count (bestCount starts at -1). -/
def pickStep (legal : List String) (counts : String → Int)
    (acc : Option String × Int) (col : String) : Option String × Int :=
  if legal.contains col then
    (if counts col > acc.2 then (some col, counts col) else acc)
  else acc

/-- The per-color counter read of the AI (`counts.get(col) || 0` for legal
colors), as an integer for comparison against the initial bestCount -1. -/
def aiCountsFn (s : GameState) : String → Int :=
  fun col => (aiFrontierPairs s.cells (ownedIdsOf s.cells .ai) col : Int)

/-- The AI color choice: tally the frontier, pick the legal color with the
highest tally (first in palette order on ties), and fall back to the first
legal color in palette order when the loop produced no candidate. -/
def aiChoose (s : GameState) : Option String :=
  let legal := computeLegalColors s .ai
  let best := (s.palette.foldl (pickStep legal (aiCountsFn s)) (none, -1)).1
  match best with
  | some b => some b
  | none => s.palette.find? (fun col => legal.contains col)

/-- The AI move-selection effect: fires only on the AI's turn while the game
is in progress; applies the chosen move when one exists and hands the turn
back to the player in every case. -/
def aiStep (s : GameState) : GameState :=
  if s.turn ≠ .ai ∨ s.gameOver ≠ none then s
  else
    let s1 := match aiChoose s with
      | some b => applyMove s .ai b
      | none => s
    { s1 with turn := .player }

/-- The SVG viewport width of the source. -/
def boardWidth : ℚ := 800

/-- The SVG viewport height of the source. -/
def boardHeight : ℚ := 600

/-- The tolerance 1e-3 used by isBorderPoint. -/
def borderEps : ℚ := 1 / 1000

/-- isBorderPoint: a polygon point within the tolerance of the outer
rectangle. -/
def isBorderPoint (p : ℚ × ℚ) : Bool :=
  p.1 < borderEps || p.2 < borderEps ||
    |p.1 - boardWidth| < borderEps || |p.2 - boardHeight| < borderEps

/-- Whether a cell's polygon touches the board border. -/
def touchesBorder (c : Cell) : Bool :=
  c.polygon.any isBorderPoint

/-- borderCellIds of the game-over effect. -/
def borderCellIds (s : GameState) : List Nat :=
  (s.cells.filter touchesBorder).map (fun c => c.id)

/-- The game-over effect: does nothing once a result is set or when no cell
touches the border; otherwise declares a winner when one side owns every
border cell. -/
def checkGameOver (s : GameState) : GameState :=
  if s.gameOver ≠ none then s
  else if (borderCellIds s).isEmpty then s
  else if (borderCellIds s).all
      (fun i => decide ((getCell s.cells i).owner = some Side.player)) then
    { s with gameOver := some .player }
  else if (borderCellIds s).all
      (fun i => decide ((getCell s.cells i).owner = some Side.ai)) then
    { s with gameOver := some .ai }
  else s

/-- External events driving the engine: a player color click or a firing of
the AI effect. -/
inductive GameAction where
  | playerChoose (col : String)
  | aiTurn
deriving DecidableEq, Repr

/-- One event followed by the game-over check effect. -/
def runStep (s : GameState) : GameAction → GameState
  | .playerChoose col => checkGameOver (handlePlayerChooseColor s col)
  | .aiTurn => checkGameOver (aiStep s)

/-- A sequence of events. -/
def runActions (s : GameState) (acts : List GameAction) : GameState :=
  acts.foldl runStep s

/-- A cell that a flood fill for (w, col) may annex: unowned and currently
displaying the chosen color. -/
def goodCell (orig : List Cell) (col : String) (j : Nat) : Prop :=
  (getCell orig j).owner = none ∧ (getCell orig j).color = col

/-- Reachability from a side's pre-move territory through cells that are
each either already owned by the side or unowned with current color equal
to the chosen color (the flood-fill reachability of the specification). -/
inductive Reach (orig : List Cell) (w : Side) (col : String) : Nat → Prop where
  | base (i : Nat) (h : (getCell orig i).owner = some w) : Reach orig w col i
  | step (i j : Nat) (hi : Reach orig w col i)
      (hadj : j ∈ (getCell orig i).neighbors)
      (hj : (getCell orig j).owner = none)
      (hcol : (getCell orig j).color = col) : Reach orig w col j

/-- Fields of a cell other than color and owner. -/
def frameAgrees (a b : Cell) : Prop :=
  a.id = b.id ∧ a.site = b.site ∧ a.path = b.path ∧
    a.polygon = b.polygon ∧ a.neighbors = b.neighbors ∧ a.isCorner = b.isCorner

/-- Two cell arrays of equal length whose cells agree on all fields other
than color and owner. -/
def cellsFrame (base cur : List Cell) : Prop :=
  cur.length = base.length ∧ ∀ j, frameAgrees (getCell cur j) (getCell base j)

/-- Decrease measure of the flood-fill loop: unvisited potential targets
plus pending queue length. -/
def bfsMeasure (orig : List Cell) (st : BfsState) : Nat :=
  ((neighborUniverse orig) \ st.visited).card + st.queue.length

/-- The initial state of the flood-fill loop inside applyMove: recolored
owned cells, queue of owned ids, visited set initialized to the queue. -/
def initBfs (cs : List Cell) (w : Side) (col : String) : BfsState :=
  { cells := recolorAll cs (ownedIdsOf cs w) col
    queue := ownedIdsOf cs w
    visited := (ownedIdsOf cs w).toFinset }

/-- Modelled from the spec's words for claim C3: the tally of DISTINCT
unowned frontier cells currently displaying a color, where a frontier cell
is one adjacent to some AI-owned cell and owned by neither side.  The
source instead increments the counter once per (owned cell, neighbor)
pair; this definition exists to compare the two readings. -/
def specDistinctTally (s : GameState) (col : String) : Nat :=
  ((List.range s.cells.length).filter (fun nb =>
    decide ((getCell s.cells nb).owner = none ∧ (getCell s.cells nb).color = col ∧
      ∃ i ∈ ownedIdsOf s.cells Side.ai, nb ∈ (getCell s.cells i).neighbors))).length

/-- Modelled from the spec's words for claim C3: the selection rule the
claim describes, over distinct-cell tallies — the first color in palette
order that is legal and whose tally is maximal among legal colors. -/
def specDistinctSelect (s : GameState) : Option String :=
  s.palette.find? (fun col =>
    (computeLegalColors s .ai).contains col &&
      decide (∀ d ∈ computeLegalColors s .ai,
        specDistinctTally s d ≤ specDistinctTally s col))

/-- Concrete four-cell fully adjacent board of the specification's test
scenario: side A owns cell 0, cells 1 and 2 are unowned in a common color,
side B owns cell 3. -/
def exBoard4 : List Cell :=
  [⟨0, (0, 0), "", [], "orangered", [1, 2, 3], some .player, false⟩,
   ⟨1, (0, 0), "", [], "yellowgreen", [0, 2, 3], none, false⟩,
   ⟨2, (0, 0), "", [], "yellowgreen", [0, 1, 3], none, false⟩,
   ⟨3, (0, 0), "", [], "cadetblue", [0, 1, 2], some .ai, false⟩]

/-- A fresh game over exBoard4, player to move. -/
def exState : GameState :=
  ⟨exBoard4, .player, none, none, none, some 0, some 3, PALETTE⟩

/-- The same game with the AI to move. -/
def exStateAiTurn : GameState :=
  ⟨exBoard4, .ai, none, none, none, some 0, some 3, PALETTE⟩

/-- The same game already decided for the AI. -/
def exTerminal : GameState :=
  ⟨exBoard4, .player, none, none, some .ai, some 0, some 3, PALETTE⟩

/-- Board for the AI-tally counterexample: one goldenrod frontier cell (2)
adjacent to both AI cells, one orangered frontier cell (3) adjacent to one
AI cell. -/
def exC3Board : List Cell :=
  [⟨0, (0, 0), "", [], "cadetblue", [2, 3], some .ai, false⟩,
   ⟨1, (0, 0), "", [], "cadetblue", [2], some .ai, false⟩,
   ⟨2, (0, 0), "", [], "goldenrod", [0, 1], none, false⟩,
   ⟨3, (0, 0), "", [], "orangered", [0], none, false⟩]

/-- Game state for the AI-tally counterexample: the AI has already moved
(khaki), so exactly khaki is forbidden. -/
def exC3 : GameState :=
  ⟨exC3Board, .ai, none, some ("khaki"), none, none, some 0, PALETTE⟩

/-- Two-cell board with polygons: cell 0 touches the outer border on all
sides, cell 1 is interior. -/
def exBorderBoard : List Cell :=
  [⟨0, (0, 0), "", [(0, 0), (800, 0), (800, 600), (0, 600)], "orangered", [1],
      some .player, false⟩,
   ⟨1, (400, 300), "", [(400, 300)], "cadetblue", [0], some .ai, false⟩]

/-- Game over exBorderBoard in which the single border cell is
player-owned. -/
def exBorder : GameState :=
  ⟨exBorderBoard, .player, none, none, none, some 0, some 1, PALETTE⟩

/-- A configured two-color game in which both palette colors are the two
sides' last colors, so the AI has no legal color. -/
def exC10 : GameState :=
  ⟨[⟨0, (0, 0), "", [], "red", [], some .ai, false⟩], .ai, some ("blue"),
    some ("red"), none, none, some 0, ["red", "blue"]⟩

/-- Invariant of one flood-fill loop state, relative to the pre-move cell
array orig: lengths and non-color/owner fields are unchanged; ownership is
only gained, only by the moving side, and only on cells reachable in the
sense of the specification; colors equal the chosen color exactly on the mover's
cells; queued cells are owned, in range, visited, and pairwise distinct;
and every visited annexable cell has already been annexed. -/
structure BfsInvAux (orig : List Cell) (w : Side) (col : String) (st : BfsState) : Prop where
  len : st.cells.length = orig.length
  frame : ∀ j, frameAgrees (getCell st.cells j) (getCell orig j)
  mono : ∀ j o, (getCell orig j).owner = some o → (getCell st.cells j).owner = some o
  gain : ∀ j, (getCell st.cells j).owner ≠ (getCell orig j).owner →
      (getCell orig j).owner = none ∧ (getCell st.cells j).owner = some w
  soundOwn : ∀ j, (getCell st.cells j).owner = some w → Reach orig w col j
  colorInv : ∀ j, (getCell st.cells j).color =
      if (getCell st.cells j).owner = some w then col else (getCell orig j).color
  queueOwned : ∀ j ∈ st.queue, (getCell st.cells j).owner = some w
  queueLt : ∀ j ∈ st.queue, j < orig.length
  queueSubV : ∀ j ∈ st.queue, j ∈ st.visited
  nodup : st.queue.Nodup
  visGood : ∀ j ∈ st.visited, goodCell orig col j → (getCell st.cells j).owner = some w

/-- Frontier closure between loop iterations: an owned cell with an
annexable neighbor not yet annexed is still pending in the queue. -/
def bfsClosure (orig : List Cell) (w : Side) (col : String) (st : BfsState) : Prop :=
  ∀ i j, (getCell st.cells i).owner = some w → j ∈ (getCell orig i).neighbors →
    goodCell orig col j → (getCell st.cells j).owner = some w ∨ i ∈ st.queue

/-- Frontier closure during the neighbor fold of the dequeued cell cid:
the unprocessed suffix todo of cid's neighbor list may still be pending. -/
def bfsClosureFold (orig : List Cell) (w : Side) (col : String)
    (cid : Nat) (todo : List Nat) (st : BfsState) : Prop :=
  ∀ i j, (getCell st.cells i).owner = some w → j ∈ (getCell orig i).neighbors →
    goodCell orig col j →
    (getCell st.cells j).owner = some w ∨ i ∈ st.queue ∨ (i = cid ∧ j ∈ todo)

/-- Full invariant between loop iterations. -/
def BfsInv (orig : List Cell) (w : Side) (col : String) (st : BfsState) : Prop :=
  BfsInvAux orig w col st ∧ bfsClosure orig w col st

theorem getCell_nil (i : Nat) : getCell [] i = default := by
  cases i <;> rfl

theorem getCell_cons_succ (c : Cell) (cs : List Cell) (i : Nat) :
    getCell (c :: cs) (i + 1) = getCell cs i := rfl

theorem getCell_oob : ∀ (cs : List Cell) (i : Nat), cs.length ≤ i → getCell cs i = default := by
  intro cs
  induction cs with
  | nil => intro i _; exact getCell_nil i
  | cons c tl ih =>
    intro i hi
    cases i with
    | zero => simp at hi
    | succ k => exact ih k (by simpa using hi)

theorem length_setCell : ∀ (cs : List Cell) (i : Nat) (a : Cell),
    (setCell cs i a).length = cs.length := by
  intro cs
  induction cs with
  | nil => intro i a; rfl
  | cons c tl ih =>
    intro i a
    cases i with
    | zero => rfl
    | succ k => simpa [setCell] using ih k a

theorem getCell_setCell_self : ∀ (cs : List Cell) (i : Nat) (a : Cell),
    i < cs.length → getCell (setCell cs i a) i = a := by
  intro cs
  induction cs with
  | nil => intro i a h; simp at h
  | cons c tl ih =>
    intro i a h
    cases i with
    | zero => rfl
    | succ k => exact ih k a (by simpa using h)

theorem getCell_setCell_ne : ∀ (cs : List Cell) (i j : Nat) (a : Cell),
    j ≠ i → getCell (setCell cs i a) j = getCell cs j := by
  intro cs
  induction cs with
  | nil => intro i j a _; cases j <;> rfl
  | cons c tl ih =>
    intro i j a hne
    cases i with
    | zero =>
      cases j with
      | zero => exact absurd rfl hne
      | succ m => rfl
    | succ k =>
      cases j with
      | zero => rfl
      | succ m => exact ih k m a (by omega)

theorem setCell_oob : ∀ (cs : List Cell) (i : Nat) (a : Cell),
    cs.length ≤ i → setCell cs i a = cs := by
  intro cs
  induction cs with
  | nil => intro i a _; rfl
  | cons c tl ih =>
    intro i a h
    cases i with
    | zero => simp at h
    | succ k => simp [setCell, ih k a (by simpa using h)]

theorem getCell_mem : ∀ (cs : List Cell) (i : Nat), i < cs.length → getCell cs i ∈ cs := by
  intro cs
  induction cs with
  | nil => intro i h; simp at h
  | cons c tl ih =>
    intro i h
    cases i with
    | zero => exact List.mem_cons_self c tl
    | succ k => exact List.mem_cons_of_mem c (ih k (by simpa using h))

theorem mem_iff_getCell (cs : List Cell) (c : Cell) :
    c ∈ cs ↔ ∃ i, i < cs.length ∧ getCell cs i = c := by
  constructor
  · intro h
    induction cs with
    | nil => simp at h
    | cons d tl ih =>
      rcases List.mem_cons.mp h with h0 | h1
      · exact ⟨0, by simp, h0.symm⟩
      · rcases ih h1 with ⟨i, hi, hg⟩
        exact ⟨i + 1, by simpa using hi, hg⟩
  · rintro ⟨i, hi, rfl⟩
    exact getCell_mem cs i hi

theorem contains_iff_mem (l : List String) (c : String) :
    l.contains c = true ↔ c ∈ l := by
  induction l with
  | nil => simp
  | cons d tl ih => simp [List.contains_cons] at ih ⊢

theorem getCell_setColorAt_self (cs : List Cell) (i : Nat) (col : String)
    (h : i < cs.length) :
    getCell (setColorAt cs i col) i = { getCell cs i with color := col } :=
  getCell_setCell_self cs i _ h

theorem getCell_setColorAt_ne (cs : List Cell) (i j : Nat) (col : String)
    (h : j ≠ i) : getCell (setColorAt cs i col) j = getCell cs j :=
  getCell_setCell_ne cs i j _ h

theorem getCell_setOwnerColorAt_self (cs : List Cell) (i : Nat) (w : Side) (col : String)
    (h : i < cs.length) :
    getCell (setOwnerColorAt cs i w col) i =
      { getCell cs i with owner := some w, color := col } :=
  getCell_setCell_self cs i _ h

theorem getCell_setOwnerColorAt_ne (cs : List Cell) (i j : Nat) (w : Side) (col : String)
    (h : j ≠ i) : getCell (setOwnerColorAt cs i w col) j = getCell cs j :=
  getCell_setCell_ne cs i j _ h

theorem length_setColorAt (cs : List Cell) (i : Nat) (col : String) :
    (setColorAt cs i col).length = cs.length := length_setCell cs i _

theorem length_setOwnerColorAt (cs : List Cell) (i : Nat) (w : Side) (col : String) :
    (setOwnerColorAt cs i w col).length = cs.length := length_setCell cs i _

theorem frameAgrees_refl (a : Cell) : frameAgrees a a :=
  ⟨rfl, rfl, rfl, rfl, rfl, rfl⟩

theorem frameAgrees_trans {a b c : Cell} (h1 : frameAgrees a b) (h2 : frameAgrees b c) :
    frameAgrees a c := by
  obtain ⟨x1, x2, x3, x4, x5, x6⟩ := h1
  obtain ⟨y1, y2, y3, y4, y5, y6⟩ := h2
  exact ⟨x1.trans y1, x2.trans y2, x3.trans y3, x4.trans y4, x5.trans y5, x6.trans y6⟩

theorem cellsFrame_refl (cs : List Cell) : cellsFrame cs cs :=
  ⟨rfl, fun j => frameAgrees_refl (getCell cs j)⟩

theorem cellsFrame_trans {a b c : List Cell} (h1 : cellsFrame a b) (h2 : cellsFrame b c) :
    cellsFrame a c :=
  ⟨h2.1.trans h1.1, fun j => frameAgrees_trans (h2.2 j) (h1.2 j)⟩

theorem cellsFrame_setColorAt (cs : List Cell) (i : Nat) (col : String) :
    cellsFrame cs (setColorAt cs i col) := by
  refine ⟨length_setColorAt cs i col, fun j => ?_⟩
  by_cases hj : j = i
  · subst hj
    by_cases hr : j < cs.length
    · rw [getCell_setColorAt_self cs j col hr]
      exact ⟨rfl, rfl, rfl, rfl, rfl, rfl⟩
    · rw [setColorAt, setCell_oob cs j _ (by omega)]
      exact frameAgrees_refl _
  · rw [getCell_setColorAt_ne cs i j col hj]
    exact frameAgrees_refl _

theorem cellsFrame_setOwnerColorAt (cs : List Cell) (i : Nat) (w : Side) (col : String) :
    cellsFrame cs (setOwnerColorAt cs i w col) := by
  refine ⟨length_setOwnerColorAt cs i w col, fun j => ?_⟩
  by_cases hj : j = i
  · subst hj
    by_cases hr : j < cs.length
    · rw [getCell_setOwnerColorAt_self cs j w col hr]
      exact ⟨rfl, rfl, rfl, rfl, rfl, rfl⟩
    · rw [setOwnerColorAt, setCell_oob cs j _ (by omega)]
      exact frameAgrees_refl _
  · rw [getCell_setOwnerColorAt_ne cs i j w col hj]
    exact frameAgrees_refl _

theorem mem_neighborUniverse (cs : List Cell) (i j : Nat)
    (hi : i < cs.length) (hj : j ∈ (getCell cs i).neighbors) :
    j ∈ neighborUniverse cs := by
  unfold neighborUniverse
  rw [List.mem_toFinset, List.mem_flatten]
  exact ⟨(getCell cs i).neighbors,
    List.mem_map.mpr ⟨getCell cs i, getCell_mem cs i hi, rfl⟩, hj⟩

theorem sdiff_card_insert (U v : Finset Nat) (nb : Nat) (hU : nb ∈ U) (hv : nb ∉ v) :
    (U \ insert nb v).card + 1 = (U \ v).card := by
  have h1 : U \ insert nb v = (U \ v).erase nb := by
    ext x
    simp only [Finset.mem_sdiff, Finset.mem_insert, Finset.mem_erase]
    tauto
  have hmem : nb ∈ U \ v := Finset.mem_sdiff.mpr ⟨hU, hv⟩
  rw [h1, Finset.card_erase_of_mem hmem]
  have hpos : 0 < (U \ v).card := Finset.card_pos.mpr ⟨nb, hmem⟩
  omega

theorem sdiff_card_insert_le (U v : Finset Nat) (nb : Nat) :
    (U \ insert nb v).card ≤ (U \ v).card :=
  Finset.card_le_card
    (Finset.sdiff_subset_sdiff (Finset.Subset.refl U) (Finset.subset_insert nb v))

theorem processNeighbor_spec (orig : List Cell) (w : Side) (col : String)
    (hWF : WFCells orig) (st : BfsState) (cid nb : Nat)
    (haux : BfsInvAux orig w col st)
    (hcid : (getCell st.cells cid).owner = some w)
    (hcidLt : cid < orig.length)
    (hnb : nb ∈ (getCell orig cid).neighbors) :
    BfsInvAux orig w col (processNeighbor w col st nb) ∧
    (∀ x ∈ st.queue, x ∈ (processNeighbor w col st nb).queue) ∧
    (∀ j, (getCell st.cells j).owner = some w →
      (getCell (processNeighbor w col st nb).cells j).owner = some w) ∧
    (∀ j, (getCell (processNeighbor w col st nb).cells j).owner = some w →
      (getCell st.cells j).owner = some w ∨
        (j = nb ∧ j ∈ (processNeighbor w col st nb).queue)) ∧
    (goodCell orig col nb → (getCell (processNeighbor w col st nb).cells nb).owner = some w) ∧
    bfsMeasure orig (processNeighbor w col st nb) ≤ bfsMeasure orig st := by
  have hnbLt : nb < orig.length := (hWF cid hcidLt).2 nb hnb
  have hnbU : nb ∈ neighborUniverse orig := mem_neighborUniverse orig cid nb hcidLt hnb
  have hlen : st.cells.length = orig.length := haux.len
  have hnbLt2 : nb < st.cells.length := by omega
  by_cases hv : nb ∈ st.visited
  · simp only [processNeighbor, if_pos hv]
    exact ⟨haux, fun x hx => hx, fun j h => h, fun j h => Or.inl h,
      fun hg => haux.visGood nb hv hg, le_refl _⟩
  · rcases howner : (getCell st.cells nb).owner with _ | o
    · by_cases hc : (getCell st.cells nb).color = col
      · -- unowned matching cell: annexation
        have hst2 : processNeighbor w col st nb =
            { cells := setOwnerColorAt st.cells nb w col,
              queue := st.queue ++ [nb],
              visited := insert nb st.visited } := by
          simp only [processNeighbor, if_neg hv, howner, if_pos hc]
        have hOrigNone : (getCell orig nb).owner = none := by
          by_cases h : (getCell st.cells nb).owner = (getCell orig nb).owner
          · rw [← h]; exact howner
          · exact (haux.gain nb h).1
        have hOrigCol : (getCell orig nb).color = col := by
          have h := haux.colorInv nb
          rw [howner] at h
          simp only [if_neg (by simp : ¬ (none : Option Side) = some w)] at h
          rw [← h]; exact hc
        have hReach : Reach orig w col nb :=
          Reach.step cid nb (haux.soundOwn cid hcid) hnb hOrigNone hOrigCol
        have hget_self : getCell (setOwnerColorAt st.cells nb w col) nb =
            { getCell st.cells nb with owner := some w, color := col } :=
          getCell_setOwnerColorAt_self st.cells nb w col hnbLt2
        have hget_ne : ∀ j, j ≠ nb →
            getCell (setOwnerColorAt st.cells nb w col) j = getCell st.cells j :=
          fun j hj => getCell_setOwnerColorAt_ne st.cells nb j w col hj
        have hmono2 : ∀ j, (getCell st.cells j).owner = some w →
            (getCell (setOwnerColorAt st.cells nb w col) j).owner = some w := by
          intro j hj
          by_cases h : j = nb
          · subst h; rw [hget_self]
          · rw [hget_ne j h]; exact hj
        rw [hst2]
        refine ⟨?_, ?_, ?_, ?_, ?_, ?_⟩
        · refine ⟨?_, ?_, ?_, ?_, ?_, ?_, ?_, ?_, ?_, ?_, ?_⟩
          · exact (length_setOwnerColorAt st.cells nb w col).trans hlen
          · intro j
            by_cases h : j = nb
            · subst h
              rw [hget_self]
              obtain ⟨f1, f2, f3, f4, f5, f6⟩ := haux.frame j
              exact ⟨f1, f2, f3, f4, f5, f6⟩
            · rw [hget_ne j h]; exact haux.frame j
          · intro j o ho
            by_cases h : j = nb
            · subst h; rw [hOrigNone] at ho; exact absurd ho (by simp)
            · rw [hget_ne j h]; exact haux.mono j o ho
          · intro j hne
            by_cases h : j = nb
            · subst h; rw [hget_self]; exact ⟨hOrigNone, rfl⟩
            · rw [hget_ne j h] at hne ⊢; exact haux.gain j hne
          · intro j hj
            by_cases h : j = nb
            · subst h; exact hReach
            · rw [hget_ne j h] at hj; exact haux.soundOwn j hj
          · intro j
            by_cases h : j = nb
            · subst h; rw [hget_self]; simp
            · rw [hget_ne j h]; exact haux.colorInv j
          · intro x hx
            rcases List.mem_append.mp hx with hx | hx
            · exact hmono2 x (haux.queueOwned x hx)
            · have : x = nb := by simpa using hx
              subst this; rw [hget_self]
          · intro x hx
            rcases List.mem_append.mp hx with hx | hx
            · exact haux.queueLt x hx
            · have : x = nb := by simpa using hx
              subst this; exact hnbLt
          · intro x hx
            rcases List.mem_append.mp hx with hx | hx
            · exact Finset.mem_insert_of_mem (haux.queueSubV x hx)
            · have : x = nb := by simpa using hx
              subst this; exact Finset.mem_insert_self x st.visited
          · rw [List.nodup_append]
            refine ⟨haux.nodup, by simp, ?_⟩
            intro x hx hx2
            have : x = nb := by simpa using hx2
            subst this
            exact hv (haux.queueSubV x hx)
          · intro j hj hg
            rcases Finset.mem_insert.mp hj with h | h
            · subst h; rw [hget_self]
            · exact hmono2 j (haux.visGood j h hg)
        · intro x hx; exact List.mem_append.mpr (Or.inl hx)
        · exact hmono2
        · intro j hj
          by_cases h : j = nb
          · subst h
            exact Or.inr ⟨rfl, List.mem_append.mpr (Or.inr (by simp))⟩
          · rw [hget_ne j h] at hj; exact Or.inl hj
        · intro _; rw [hget_self]
        · unfold bfsMeasure
          have hcard := sdiff_card_insert (neighborUniverse orig) st.visited nb hnbU hv
          dsimp only
          simp only [List.length_append, List.length_singleton]
          omega
      · -- unowned cell of a different color: visited only
        have hst2 : processNeighbor w col st nb =
            { cells := st.cells, queue := st.queue, visited := insert nb st.visited } := by
          simp only [processNeighbor, if_neg hv, howner, if_neg hc]
        have hnotgood : ¬ goodCell orig col nb := by
          intro hg
          have h := haux.colorInv nb
          rw [howner] at h
          simp only [if_neg (by simp : ¬ (none : Option Side) = some w)] at h
          exact hc (h.trans hg.2)
        rw [hst2]
        refine ⟨?_, fun x hx => hx, fun j h => h, fun j h => Or.inl h,
          fun hg => absurd hg hnotgood, ?_⟩
        · refine ⟨haux.len, haux.frame, haux.mono, haux.gain, haux.soundOwn, haux.colorInv,
            haux.queueOwned, haux.queueLt,
            fun x hx => Finset.mem_insert_of_mem (haux.queueSubV x hx), haux.nodup, ?_⟩
          intro j hj hg
          rcases Finset.mem_insert.mp hj with h | h
          · subst h; exact absurd hg hnotgood
          · exact haux.visGood j h hg
        · unfold bfsMeasure
          have := sdiff_card_insert_le (neighborUniverse orig) st.visited nb
          dsimp only
          omega
    · by_cases ho : o = w
      · -- own cell: re-enqueue (its color already equals col, so no recolor)
        have howner2 : (getCell st.cells nb).owner = some w := by rw [howner, ho]
        have hcol : (getCell st.cells nb).color = col := by
          have h := haux.colorInv nb
          rwa [howner2, if_pos rfl] at h
        have hst2 : processNeighbor w col st nb =
            { cells := st.cells, queue := st.queue ++ [nb], visited := insert nb st.visited } := by
          simp only [processNeighbor, if_neg hv, howner, if_pos ho, hcol]
          simp
        rw [hst2]
        refine ⟨?_, ?_, fun j h => h, fun j h => Or.inl h, fun _ => howner2, ?_⟩
        · refine ⟨haux.len, haux.frame, haux.mono, haux.gain, haux.soundOwn, haux.colorInv,
            ?_, ?_, ?_, ?_, ?_⟩
          · intro x hx
            rcases List.mem_append.mp hx with hx | hx
            · exact haux.queueOwned x hx
            · have : x = nb := by simpa using hx
              subst this; exact howner2
          · intro x hx
            rcases List.mem_append.mp hx with hx | hx
            · exact haux.queueLt x hx
            · have : x = nb := by simpa using hx
              subst this; exact hnbLt
          · intro x hx
            rcases List.mem_append.mp hx with hx | hx
            · exact Finset.mem_insert_of_mem (haux.queueSubV x hx)
            · have : x = nb := by simpa using hx
              subst this; exact Finset.mem_insert_self x st.visited
          · rw [List.nodup_append]
            refine ⟨haux.nodup, by simp, ?_⟩
            intro x hx hx2
            have : x = nb := by simpa using hx2
            subst this
            exact hv (haux.queueSubV x hx)
          · intro j hj hg
            rcases Finset.mem_insert.mp hj with h | h
            · subst h; exact howner2
            · exact haux.visGood j h hg
        · intro x hx; exact List.mem_append.mpr (Or.inl hx)
        · unfold bfsMeasure
          have hcard := sdiff_card_insert (neighborUniverse orig) st.visited nb hnbU hv
          dsimp only
          simp only [List.length_append, List.length_singleton]
          omega
      · -- opponent-owned cell: visited only, never crossed
        have hst2 : processNeighbor w col st nb =
            { cells := st.cells, queue := st.queue, visited := insert nb st.visited } := by
          simp only [processNeighbor, if_neg hv, howner, if_neg ho]
        have hnotgood : ¬ goodCell orig col nb := by
          intro hg
          by_cases h : (getCell st.cells nb).owner = (getCell orig nb).owner
          · rw [hg.1] at h; rw [howner] at h; simp at h
          · have h2 := (haux.gain nb h).2
            rw [howner] at h2
            exact ho (by simpa using h2)
        rw [hst2]
        refine ⟨?_, fun x hx => hx, fun j h => h, fun j h => Or.inl h,
          fun hg => absurd hg hnotgood, ?_⟩
        · refine ⟨haux.len, haux.frame, haux.mono, haux.gain, haux.soundOwn, haux.colorInv,
            haux.queueOwned, haux.queueLt,
            fun x hx => Finset.mem_insert_of_mem (haux.queueSubV x hx), haux.nodup, ?_⟩
          intro j hj hg
          rcases Finset.mem_insert.mp hj with h | h
          · subst h; exact absurd hg hnotgood
          · exact haux.visGood j h hg
        · unfold bfsMeasure
          have := sdiff_card_insert_le (neighborUniverse orig) st.visited nb
          dsimp only
          omega

theorem owner_lt_length (cs : List Cell) (j : Nat) (w : Side)
    (h : (getCell cs j).owner = some w) : j < cs.length := by
  by_contra hlt
  rw [getCell_oob cs j (by omega)] at h
  simp [default] at h

theorem mem_filter_map_id (cs : List Cell) (p : Cell → Bool) (j : Nat)
    (hids : ∀ k, k < cs.length → (getCell cs k).id = k) :
    j ∈ (cs.filter p).map (fun c => c.id) ↔ j < cs.length ∧ p (getCell cs j) = true := by
  constructor
  · intro h
    rcases List.mem_map.mp h with ⟨d, hd, rfl⟩
    have hdm := List.mem_of_mem_filter hd
    have hdp := List.of_mem_filter hd
    rcases (mem_iff_getCell cs d).mp hdm with ⟨k, hk, rfl⟩
    rw [hids k hk]
    exact ⟨hk, hdp⟩
  · rintro ⟨hlt, hp⟩
    refine List.mem_map.mpr ⟨getCell cs j, List.mem_filter.mpr ⟨getCell_mem cs j hlt, hp⟩, ?_⟩
    exact hids j hlt

theorem mem_ownedIdsOf (cs : List Cell) (w : Side) (hWF : WFCells cs) (j : Nat) :
    j ∈ ownedIdsOf cs w ↔ (getCell cs j).owner = some w := by
  unfold ownedIdsOf
  rw [mem_filter_map_id cs _ j (fun k hk => (hWF k hk).1)]
  constructor
  · rintro ⟨_, hp⟩
    simpa using hp
  · intro h
    exact ⟨owner_lt_length cs j w h, by simp [h]⟩

theorem filter_map_id_nodup : ∀ (cs : List Cell) (p : Cell → Bool) (base : Nat),
    (∀ k, k < cs.length → (getCell cs k).id = base + k) →
    ((cs.filter p).map (fun c => c.id)).Nodup := by
  intro cs
  induction cs with
  | nil => intro p base _; simp
  | cons c tl ih =>
    intro p base h
    have hc : c.id = base := by simpa using h 0 (by simp)
    have htl : ∀ k, k < tl.length → (getCell tl k).id = (base + 1) + k := by
      intro k hk
      have h2 := h (k + 1) (by simp; omega)
      rw [getCell_cons_succ] at h2
      rw [h2]; omega
    have hmem : ∀ j ∈ (tl.filter p).map (fun c => c.id), base + 1 ≤ j := by
      intro j hj
      rcases List.mem_map.mp hj with ⟨d, hd, rfl⟩
      rcases (mem_iff_getCell tl d).mp (List.mem_of_mem_filter hd) with ⟨k, hk, rfl⟩
      rw [htl k hk]; omega
    by_cases hp : p c
    · rw [List.filter_cons_of_pos hp, List.map_cons]
      rw [List.nodup_cons]
      refine ⟨?_, ih p (base + 1) htl⟩
      intro hcm
      have := hmem c.id hcm
      omega
    · rw [List.filter_cons_of_neg (by simpa using hp)]
      exact ih p (base + 1) htl

theorem ownedIdsOf_nodup (cs : List Cell) (w : Side) (hWF : WFCells cs) :
    (ownedIdsOf cs w).Nodup :=
  filter_map_id_nodup cs _ 0 (fun k hk => by simpa using (hWF k hk).1)

theorem length_recolorAll : ∀ (owned : List Nat) (cs : List Cell) (col : String),
    (recolorAll cs owned col).length = cs.length := by
  intro owned
  induction owned with
  | nil => intro cs col; rfl
  | cons i rest ih =>
    intro cs col
    show (recolorAll (setColorAt cs i col) rest col).length = cs.length
    rw [ih, length_setColorAt]

theorem getCell_recolorAll : ∀ (owned : List Nat) (cs : List Cell) (col : String) (j : Nat),
    getCell (recolorAll cs owned col) j =
      if j ∈ owned ∧ j < cs.length then { getCell cs j with color := col }
      else getCell cs j := by
  intro owned
  induction owned with
  | nil => intro cs col j; simp [recolorAll]
  | cons i rest ih =>
    intro cs col j
    show getCell (recolorAll (setColorAt cs i col) rest col) j = _
    rw [ih]
    by_cases hj : j = i
    · subst hj
      by_cases hlt : j < cs.length
      · rw [getCell_setColorAt_self cs j col hlt]
        by_cases hm : j ∈ rest
        · rw [if_pos ⟨hm, by rw [length_setColorAt]; exact hlt⟩,
            if_pos ⟨by simp, hlt⟩]
        · rw [if_neg (by rw [length_setColorAt]; tauto), if_pos ⟨by simp, hlt⟩]
      · rw [setColorAt, setCell_oob cs j _ (by omega)]
        rw [if_neg (by tauto), if_neg (by tauto)]
    · rw [getCell_setColorAt_ne cs i j col hj, length_setColorAt]
      by_cases hm : j ∈ rest
      · by_cases hlt : j < cs.length
        · rw [if_pos ⟨hm, hlt⟩, if_pos ⟨by simp [hm], hlt⟩]
        · rw [if_neg (by tauto), if_neg (by tauto)]
      · rw [if_neg (by tauto)]
        by_cases hmem : j ∈ i :: rest
        · rcases List.mem_cons.mp hmem with h | h
          · exact absurd h hj
          · exact absurd h hm
        · rw [if_neg (by tauto)]

theorem foldNeighbors_spec (orig : List Cell) (w : Side) (col : String)
    (hWF : WFCells orig) (cid : Nat) (hcidLt : cid < orig.length) :
    ∀ (todo : List Nat) (st : BfsState),
    BfsInvAux orig w col st →
    (getCell st.cells cid).owner = some w →
    (∀ x ∈ todo, x ∈ (getCell orig cid).neighbors) →
    bfsClosureFold orig w col cid todo st →
    BfsInvAux orig w col (todo.foldl (processNeighbor w col) st) ∧
      bfsClosureFold orig w col cid [] (todo.foldl (processNeighbor w col) st) ∧
      bfsMeasure orig (todo.foldl (processNeighbor w col) st) ≤ bfsMeasure orig st := by
  intro todo
  induction todo with
  | nil =>
    intro st haux _ _ hcl
    exact ⟨haux, hcl, le_refl _⟩
  | cons nb rest ih =>
    intro st haux hcid htodo hcl
    have hnb : nb ∈ (getCell orig cid).neighbors := htodo nb (by simp)
    obtain ⟨haux1, hqmono, hmono, hback, hgoodnb, hmeas⟩ :=
      processNeighbor_spec orig w col hWF st cid nb haux hcid hcidLt hnb
    have hcid1 : (getCell (processNeighbor w col st nb).cells cid).owner = some w :=
      hmono cid hcid
    have hcl1 : bfsClosureFold orig w col cid rest (processNeighbor w col st nb) := by
      intro i j hi hj hjg
      rcases hback i hi with hi0 | ⟨rfl, hiq⟩
      · rcases hcl i j hi0 hj hjg with h | h | ⟨rfl, hjm⟩
        · exact Or.inl (hmono j h)
        · exact Or.inr (Or.inl (hqmono i h))
        · rcases List.mem_cons.mp hjm with rfl | hjm
          · exact Or.inl (hgoodnb hjg)
          · exact Or.inr (Or.inr ⟨rfl, hjm⟩)
      · exact Or.inr (Or.inl hiq)
    have hrest : ∀ x ∈ rest, x ∈ (getCell orig cid).neighbors :=
      fun x hx => htodo x (List.mem_cons_of_mem nb hx)
    rw [List.foldl_cons]
    obtain ⟨r1, r2, r3⟩ := ih (processNeighbor w col st nb) haux1 hcid1 hrest hcl1
    exact ⟨r1, r2, le_trans r3 hmeas⟩

theorem bfsStep_spec (orig : List Cell) (w : Side) (col : String)
    (hWF : WFCells orig) (st : BfsState) (hinv : BfsInv orig w col st) :
    BfsInv orig w col (bfsStep w col st) ∧
      (st.queue ≠ [] → bfsMeasure orig (bfsStep w col st) < bfsMeasure orig st) := by
  obtain ⟨haux, hcl⟩ := hinv
  obtain ⟨scells, squeue, svis⟩ := st
  cases squeue with
  | nil =>
    exact ⟨⟨haux, hcl⟩, fun h => absurd rfl h⟩
  | cons cid rest =>
    have hcidq : cid ∈ (BfsState.mk scells (cid :: rest) svis).queue := by simp
    have hcid : (getCell scells cid).owner = some w := haux.queueOwned cid hcidq
    have hcidLt : cid < orig.length := haux.queueLt cid hcidq
    have hnbrs : (getCell scells cid).neighbors = (getCell orig cid).neighbors :=
      (haux.frame cid).2.2.2.2.1
    have hstep : bfsStep w col (BfsState.mk scells (cid :: rest) svis) =
        ((getCell orig cid).neighbors).foldl (processNeighbor w col)
          (BfsState.mk scells rest svis) := by
      show ((getCell scells cid).neighbors).foldl (processNeighbor w col)
          (BfsState.mk scells rest svis) = _
      rw [hnbrs]
    have haux2 : BfsInvAux orig w col (BfsState.mk scells rest svis) := by
      refine ⟨haux.len, haux.frame, haux.mono, haux.gain, haux.soundOwn, haux.colorInv,
        ?_, ?_, ?_, ?_, haux.visGood⟩
      · exact fun x hx => haux.queueOwned x (List.mem_cons_of_mem cid hx)
      · exact fun x hx => haux.queueLt x (List.mem_cons_of_mem cid hx)
      · exact fun x hx => haux.queueSubV x (List.mem_cons_of_mem cid hx)
      · exact haux.nodup.of_cons
    have hcl2 : bfsClosureFold orig w col cid ((getCell orig cid).neighbors)
        (BfsState.mk scells rest svis) := by
      intro i j hi hj hjg
      rcases hcl i j hi hj hjg with h | h
      · exact Or.inl h
      · rcases List.mem_cons.mp h with rfl | h
        · exact Or.inr (Or.inr ⟨rfl, hj⟩)
        · exact Or.inr (Or.inl h)
    obtain ⟨r1, r2, r3⟩ :=
      foldNeighbors_spec orig w col hWF cid hcidLt ((getCell orig cid).neighbors)
        (BfsState.mk scells rest svis) haux2 hcid (fun x hx => hx) hcl2
    rw [hstep]
    refine ⟨⟨r1, ?_⟩, ?_⟩
    · intro i j hi hj hjg
      rcases r2 i j hi hj hjg with h | h | ⟨_, hjm⟩
      · exact Or.inl h
      · exact Or.inr h
      · simp at hjm
    · intro _
      have hst : bfsMeasure orig (BfsState.mk scells rest svis) + 1 =
          bfsMeasure orig (BfsState.mk scells (cid :: rest) svis) := by
        unfold bfsMeasure
        dsimp only
        simp only [List.length_cons]
        omega
      omega

theorem bfsRun_queue_nil (w : Side) (col : String) :
    ∀ (fuel : Nat) (st : BfsState), st.queue = [] → bfsRun w col fuel st = st := by
  intro fuel st hq
  cases fuel with
  | zero => rfl
  | succ n => simp [bfsRun, hq]

theorem bfsRun_inv (orig : List Cell) (w : Side) (col : String) (hWF : WFCells orig) :
    ∀ (fuel : Nat) (st : BfsState), BfsInv orig w col st → bfsMeasure orig st ≤ fuel →
    BfsInv orig w col (bfsRun w col fuel st) ∧ (bfsRun w col fuel st).queue = [] := by
  intro fuel
  induction fuel with
  | zero =>
    intro st hinv hm
    have hq : st.queue = [] := by
      have : st.queue.length = 0 := by
        unfold bfsMeasure at hm
        omega
      exact List.length_eq_zero.mp this
    exact ⟨hinv, hq⟩
  | succ n ih =>
    intro st hinv hm
    cases hq : st.queue with
    | nil =>
      rw [bfsRun_queue_nil w col (n + 1) st hq]
      exact ⟨hinv, hq⟩
    | cons a t =>
      have hrun : bfsRun w col (n + 1) st = bfsRun w col n (bfsStep w col st) := by
        simp [bfsRun, hq]
      obtain ⟨hinv2, hlt⟩ := bfsStep_spec orig w col hWF st hinv
      have hlt2 : bfsMeasure orig (bfsStep w col st) < bfsMeasure orig st :=
        hlt (by rw [hq]; simp)
      rw [hrun]
      exact ih (bfsStep w col st) hinv2 (by omega)

theorem bfsRun_add (w : Side) (col : String) :
    ∀ (a b : Nat) (st : BfsState),
    bfsRun w col (a + b) st = bfsRun w col b (bfsRun w col a st) := by
  intro a
  induction a with
  | zero => intro b st; simp [bfsRun]
  | succ n ih =>
    intro b st
    cases hq : st.queue with
    | nil =>
      rw [bfsRun_queue_nil w col (n + 1 + b) st hq,
        bfsRun_queue_nil w col (n + 1) st hq,
        bfsRun_queue_nil w col b st hq]
    | cons x t =>
      have h1 : bfsRun w col (n + 1 + b) st = bfsRun w col (n + b) (bfsStep w col st) := by
        have : n + 1 + b = (n + b) + 1 := by omega
        rw [this]
        simp [bfsRun, hq]
      have h2 : bfsRun w col (n + 1) st = bfsRun w col n (bfsStep w col st) := by
        simp [bfsRun, hq]
      rw [h1, h2, ih b (bfsStep w col st)]

theorem bfsInv_init (cs : List Cell) (w : Side) (col : String) (hWF : WFCells cs) :
    BfsInv cs w col
      { cells := recolorAll cs (ownedIdsOf cs w) col,
        queue := ownedIdsOf cs w,
        visited := (ownedIdsOf cs w).toFinset } := by
  have hmem : ∀ j, j ∈ ownedIdsOf cs w ↔ (getCell cs j).owner = some w :=
    mem_ownedIdsOf cs w hWF
  have hget : ∀ j, getCell (recolorAll cs (ownedIdsOf cs w) col) j =
      if (getCell cs j).owner = some w then { getCell cs j with color := col }
      else getCell cs j := by
    intro j
    rw [getCell_recolorAll]
    by_cases h : (getCell cs j).owner = some w
    · rw [if_pos ⟨(hmem j).mpr h, owner_lt_length cs j w h⟩, if_pos h]
    · rw [if_neg (fun hc => h ((hmem j).mp hc.1)), if_neg h]
  have howner : ∀ j, (getCell (recolorAll cs (ownedIdsOf cs w) col) j).owner =
      (getCell cs j).owner := by
    intro j
    rw [hget]
    split <;> rfl
  constructor
  · refine ⟨?_, ?_, ?_, ?_, ?_, ?_, ?_, ?_, ?_, ?_, ?_⟩
    · exact length_recolorAll (ownedIdsOf cs w) cs col
    · intro j
      rw [hget]
      split
      · exact ⟨rfl, rfl, rfl, rfl, rfl, rfl⟩
      · exact frameAgrees_refl _
    · intro j o h
      rw [howner j]
      exact h
    · intro j h
      rw [howner j] at h
      exact absurd rfl h
    · intro j h
      rw [howner j] at h
      exact Reach.base j h
    · intro j
      rw [hget]
      by_cases h : (getCell cs j).owner = some w
      · simp [h]
      · simp [h]
    · intro j hj
      rw [howner j]
      exact (hmem j).mp hj
    · intro j hj
      exact owner_lt_length cs j w ((hmem j).mp hj)
    · intro j hj
      exact List.mem_toFinset.mpr hj
    · exact ownedIdsOf_nodup cs w hWF
    · intro j hj _
      rw [howner j]
      exact (hmem j).mp (List.mem_toFinset.mp hj)
  · intro i j hi _ _
    rw [howner i] at hi
    exact Or.inr ((hmem i).mpr hi)

theorem reach_of_no_owner (cs : List Cell) (w : Side) (col : String)
    (hnone : ∀ j, (getCell cs j).owner ≠ some w) :
    ∀ j, ¬ Reach cs w col j := by
  intro j hR
  induction hR with
  | base i h => exact hnone i h
  | step i j hi hadj hj hcol ihi => exact ihi

theorem ownedIdsOf_empty_iff (cs : List Cell) (w : Side) (hWF : WFCells cs) :
    (ownedIdsOf cs w).isEmpty = true ↔ ∀ j, (getCell cs j).owner ≠ some w := by
  rw [List.isEmpty_iff]
  constructor
  · intro h j hj
    have := (mem_ownedIdsOf cs w hWF j).mpr hj
    rw [h] at this
    simp at this
  · intro h
    cases hq : ownedIdsOf cs w with
    | nil => rfl
    | cons a t =>
      have ha : a ∈ ownedIdsOf cs w := by rw [hq]; simp
      exact absurd ((mem_ownedIdsOf cs w hWF a).mp ha) (h a)

theorem applyMoveCells_props (cs : List Cell) (w : Side) (col : String) (hWF : WFCells cs) :
    (applyMoveCells cs w col).length = cs.length ∧
    (∀ j, frameAgrees (getCell (applyMoveCells cs w col) j) (getCell cs j)) ∧
    (∀ j o, (getCell cs j).owner = some o →
      (getCell (applyMoveCells cs w col) j).owner = some o) ∧
    (∀ j, (getCell (applyMoveCells cs w col) j).owner = some w ↔ Reach cs w col j) ∧
    (∀ j, (getCell (applyMoveCells cs w col) j).color =
      if (getCell (applyMoveCells cs w col) j).owner = some w then col
      else (getCell cs j).color) ∧
    (∀ j, (getCell (applyMoveCells cs w col) j).owner ≠ (getCell cs j).owner →
      ((getCell cs j).owner = none ∧ (getCell (applyMoveCells cs w col) j).owner = some w)) := by
  by_cases hempty : (ownedIdsOf cs w).isEmpty = true
  · have happ : applyMoveCells cs w col = cs := by
      simp [applyMoveCells, hempty]
    have hnone : ∀ j, (getCell cs j).owner ≠ some w :=
      (ownedIdsOf_empty_iff cs w hWF).mp hempty
    rw [happ]
    refine ⟨rfl, fun j => frameAgrees_refl _, fun j o h => h, ?_, ?_, ?_⟩
    · intro j
      constructor
      · intro h
        exact absurd h (hnone j)
      · intro h
        exact absurd h (reach_of_no_owner cs w col hnone j)
    · intro j
      rw [if_neg (hnone j)]
    · intro j h
      exact absurd rfl h
  · have happ : applyMoveCells cs w col =
        (bfsRun w col (bfsFuel cs (ownedIdsOf cs w))
          { cells := recolorAll cs (ownedIdsOf cs w) col,
            queue := ownedIdsOf cs w,
            visited := (ownedIdsOf cs w).toFinset }).cells := by
      simp [applyMoveCells, hempty]
    have hinit := bfsInv_init cs w col hWF
    have hm : bfsMeasure cs
        { cells := recolorAll cs (ownedIdsOf cs w) col,
          queue := ownedIdsOf cs w,
          visited := (ownedIdsOf cs w).toFinset } ≤ bfsFuel cs (ownedIdsOf cs w) := by
      unfold bfsMeasure bfsFuel
      dsimp only
      have : ((neighborUniverse cs) \ (ownedIdsOf cs w).toFinset).card ≤
          (neighborUniverse cs).card :=
        Finset.card_le_card (Finset.sdiff_subset)
      omega
    obtain ⟨⟨hauxF, hclF⟩, hqF⟩ :=
      bfsRun_inv cs w col hWF (bfsFuel cs (ownedIdsOf cs w)) _ hinit hm
    rw [happ]
    refine ⟨hauxF.len, hauxF.frame, hauxF.mono, ?_, hauxF.colorInv, hauxF.gain⟩
    intro j
    constructor
    · exact hauxF.soundOwn j
    · intro hR
      induction hR with
      | base i h => exact hauxF.mono i w h
      | step i j2 hi hadj hj2 hcol2 ihi =>
        rcases hclF i j2 ihi hadj ⟨hj2, hcol2⟩ with h | h
        · exact h
        · rw [hqF] at h
          simp at h

theorem WFCells_applyMoveCells (cs : List Cell) (w : Side) (col : String)
    (hWF : WFCells cs) : WFCells (applyMoveCells cs w col) := by
  obtain ⟨hlen, hframe, _⟩ := applyMoveCells_props cs w col hWF
  intro i hi
  rw [hlen] at hi
  obtain ⟨hid, _, _, _, hnb, _⟩ := hframe i
  constructor
  · rw [hid]
    exact (hWF i hi).1
  · intro j hj
    rw [hnb] at hj
    rw [hlen]
    exact (hWF i hi).2 j hj

theorem mem_baseForbiddenOf (s : GameState) (w : Side) (c : String) :
    c ∈ baseForbiddenOf s w ↔
      ((some c = lastColorOf s w ∨ some c = lastColorOf s w.other) ∧ c ≠ "") := by
  unfold baseForbiddenOf
  rw [List.mem_filter]
  simp only [List.mem_filterMap, List.mem_cons, List.mem_singleton, id]
  constructor
  · rintro ⟨⟨a, ha, hac⟩, hc⟩
    have ha2 : a = some c := hac
    subst ha2
    rcases ha with h | h | h
    · exact ⟨Or.inl h, by simpa using hc⟩
    · exact ⟨Or.inr h, by simpa using hc⟩
    · simp at h
  · rintro ⟨h, hc⟩
    refine ⟨⟨some c, ?_, rfl⟩, by simpa using hc⟩
    rcases h with h | h
    · exact Or.inl h
    · exact Or.inr (Or.inl h)

theorem mem_forbiddenOf (s : GameState) (w : Side) (c : String) (hc : c ≠ "") :
    c ∈ forbiddenOf s w ↔
      (some c = lastColorOf s w ∨ some c = lastColorOf s w.other ∨
        (lastColorOf s w = none ∧ some c = currentStartColor s w)) := by
  unfold forbiddenOf
  by_cases hls : lastColorOf s w = none
  · rw [if_pos hls]
    rcases hsc : currentStartColor s w with _ | d
    · rw [mem_baseForbiddenOf]
      constructor
      · rintro ⟨h, _⟩; tauto
      · rintro (h | h | ⟨_, h⟩)
        · exact ⟨Or.inl h, hc⟩
        · exact ⟨Or.inr h, hc⟩
        · simp at h
    · dsimp only
      by_cases hd : d = ""
      · subst hd
        rw [if_neg (by simp)]
        rw [mem_baseForbiddenOf]
        constructor
        · rintro ⟨h, _⟩; tauto
        · rintro (h | h | ⟨_, h⟩)
          · exact ⟨Or.inl h, hc⟩
          · exact ⟨Or.inr h, hc⟩
          · exact absurd (by simpa using h) hc
      · rw [if_pos hd, List.mem_append, mem_baseForbiddenOf]
        constructor
        · rintro (⟨h, _⟩ | h)
          · tauto
          · have hcd : c = d := by simpa using h
            exact Or.inr (Or.inr ⟨hls, by rw [hcd]⟩)
        · rintro (h | h | ⟨_, h⟩)
          · exact Or.inl ⟨Or.inl h, hc⟩
          · exact Or.inl ⟨Or.inr h, hc⟩
          · have hcd : c = d := by simpa using h
            exact Or.inr (by simp [hcd])
  · rw [if_neg hls, mem_baseForbiddenOf]
    constructor
    · rintro ⟨h, _⟩; tauto
    · rintro (h | h | ⟨hn, _⟩)
      · exact ⟨Or.inl h, hc⟩
      · exact ⟨Or.inr h, hc⟩
      · exact absurd hn hls

theorem mem_computeLegalColors (s : GameState) (w : Side) (c : String)
    (hpal : ("" : String) ∉ s.palette) :
    c ∈ computeLegalColors s w ↔
      (c ∈ s.palette ∧ some c ≠ lastColorOf s w ∧ some c ≠ lastColorOf s w.other ∧
        (lastColorOf s w = none → some c ≠ currentStartColor s w)) := by
  unfold computeLegalColors
  rw [List.mem_filter]
  constructor
  · rintro ⟨hp, hf⟩
    have hc : c ≠ "" := fun h => hpal (h ▸ hp)
    have hnot : c ∉ forbiddenOf s w := by
      intro hmem
      rw [Bool.not_eq_true', ← Bool.not_eq_true] at hf
      exact hf ((contains_iff_mem _ c).mpr hmem)
    rw [mem_forbiddenOf s w c hc] at hnot
    push_neg at hnot
    exact ⟨hp, hnot.1, hnot.2.1, hnot.2.2⟩
  · rintro ⟨hp, h1, h2, h3⟩
    have hc : c ≠ "" := fun h => hpal (h ▸ hp)
    refine ⟨hp, ?_⟩
    rw [Bool.not_eq_true', ← Bool.not_eq_true]
    intro hcon
    have hmem := (contains_iff_mem _ c).mp hcon
    rw [mem_forbiddenOf s w c hc] at hmem
    rcases hmem with h | h | ⟨hn, h⟩
    · exact h1 h
    · exact h2 h
    · exact h3 hn h

theorem computeLegalColors_subset (s : GameState) (w : Side) (c : String)
    (h : c ∈ computeLegalColors s w) : c ∈ s.palette :=
  (List.mem_filter.mp h).1

theorem processNeighbor_cells_cases (w : Side) (col : String) (st : BfsState) (nb : Nat) :
    (processNeighbor w col st nb).cells = st.cells ∨
    (processNeighbor w col st nb).cells = setColorAt st.cells nb col ∨
    (processNeighbor w col st nb).cells = setOwnerColorAt st.cells nb w col := by
  by_cases hv : nb ∈ st.visited
  · left
    simp [processNeighbor, hv]
  · rcases howner : (getCell st.cells nb).owner with _ | o
    · by_cases hcol : (getCell st.cells nb).color = col
      · right; right
        simp only [processNeighbor, if_neg hv, howner, if_pos hcol]
      · left
        simp only [processNeighbor, if_neg hv, howner, if_neg hcol]
    · by_cases ho : o = w
      · by_cases hcol : (getCell st.cells nb).color = col
        · left
          simp only [processNeighbor, if_neg hv, howner, if_pos ho, hcol]
          rw [if_neg (by simp)]
        · right; left
          simp only [processNeighbor, if_neg hv, howner, if_pos ho, if_pos hcol]
      · left
        simp only [processNeighbor, if_neg hv, howner, if_neg ho]

theorem cellsFrame_processNeighbor (w : Side) (col : String) (st : BfsState) (nb : Nat) :
    cellsFrame st.cells (processNeighbor w col st nb).cells := by
  rcases processNeighbor_cells_cases w col st nb with h | h | h
  · rw [h]; exact cellsFrame_refl _
  · rw [h]; exact cellsFrame_setColorAt st.cells nb col
  · rw [h]; exact cellsFrame_setOwnerColorAt st.cells nb w col

theorem cellsFrame_foldProcess (w : Side) (col : String) :
    ∀ (l : List Nat) (st : BfsState),
    cellsFrame st.cells ((l.foldl (processNeighbor w col) st).cells) := by
  intro l
  induction l with
  | nil => intro st; exact cellsFrame_refl _
  | cons nb rest ih =>
    intro st
    rw [List.foldl_cons]
    exact cellsFrame_trans (cellsFrame_processNeighbor w col st nb)
      (ih (processNeighbor w col st nb))

theorem cellsFrame_bfsStep (w : Side) (col : String) (st : BfsState) :
    cellsFrame st.cells (bfsStep w col st).cells := by
  obtain ⟨scells, squeue, svis⟩ := st
  cases squeue with
  | nil => exact cellsFrame_refl _
  | cons cid rest =>
    exact cellsFrame_foldProcess w col ((getCell scells cid).neighbors)
      (BfsState.mk scells rest svis)

theorem cellsFrame_bfsRun (w : Side) (col : String) :
    ∀ (fuel : Nat) (st : BfsState),
    cellsFrame st.cells ((bfsRun w col fuel st).cells) := by
  intro fuel
  induction fuel with
  | zero => intro st; exact cellsFrame_refl _
  | succ n ih =>
    intro st
    cases hq : st.queue with
    | nil =>
      rw [bfsRun_queue_nil w col (n + 1) st hq]
      exact cellsFrame_refl _
    | cons a t =>
      have hrun : bfsRun w col (n + 1) st = bfsRun w col n (bfsStep w col st) := by
        simp [bfsRun, hq]
      rw [hrun]
      exact cellsFrame_trans (cellsFrame_bfsStep w col st) (ih (bfsStep w col st))

theorem cellsFrame_recolorAll (col : String) :
    ∀ (owned : List Nat) (cs : List Cell),
    cellsFrame cs (recolorAll cs owned col) := by
  intro owned
  induction owned with
  | nil => intro cs; exact cellsFrame_refl _
  | cons i rest ih =>
    intro cs
    show cellsFrame cs (recolorAll (setColorAt cs i col) rest col)
    exact cellsFrame_trans (cellsFrame_setColorAt cs i col) (ih (setColorAt cs i col))

theorem cellsFrame_applyMoveCells (cs : List Cell) (w : Side) (col : String) :
    cellsFrame cs (applyMoveCells cs w col) := by
  by_cases h : (ownedIdsOf cs w).isEmpty = true
  · have : applyMoveCells cs w col = cs := by simp [applyMoveCells, h]
    rw [this]
    exact cellsFrame_refl _
  · have : applyMoveCells cs w col =
        (bfsRun w col (bfsFuel cs (ownedIdsOf cs w))
          { cells := recolorAll cs (ownedIdsOf cs w) col,
            queue := ownedIdsOf cs w,
            visited := (ownedIdsOf cs w).toFinset }).cells := by
      simp [applyMoveCells, h]
    rw [this]
    exact cellsFrame_trans (cellsFrame_recolorAll col (ownedIdsOf cs w) cs)
      (cellsFrame_bfsRun w col (bfsFuel cs (ownedIdsOf cs w)) _)

theorem checkGameOver_fields (s : GameState) :
    (checkGameOver s).cells = s.cells ∧ (checkGameOver s).turn = s.turn ∧
    (checkGameOver s).playerLastColor = s.playerLastColor ∧
    (checkGameOver s).aiLastColor = s.aiLastColor ∧
    (checkGameOver s).playerStartId = s.playerStartId ∧
    (checkGameOver s).aiStartId = s.aiStartId ∧
    (checkGameOver s).palette = s.palette := by
  unfold checkGameOver
  split
  · exact ⟨rfl, rfl, rfl, rfl, rfl, rfl, rfl⟩
  · split
    · exact ⟨rfl, rfl, rfl, rfl, rfl, rfl, rfl⟩
    · split
      · exact ⟨rfl, rfl, rfl, rfl, rfl, rfl, rfl⟩
      · split
        · exact ⟨rfl, rfl, rfl, rfl, rfl, rfl, rfl⟩
        · exact ⟨rfl, rfl, rfl, rfl, rfl, rfl, rfl⟩

theorem applyMove_fields (s : GameState) (w : Side) (col : String) :
    (applyMove s w col).cells = applyMoveCells s.cells w col ∧
    (applyMove s w col).turn = s.turn ∧
    (applyMove s w col).gameOver = s.gameOver ∧
    (applyMove s w col).playerStartId = s.playerStartId ∧
    (applyMove s w col).aiStartId = s.aiStartId ∧
    (applyMove s w col).palette = s.palette ∧
    (applyMove s w col).playerLastColor =
      (if w = .player then some col else s.playerLastColor) ∧
    (applyMove s w col).aiLastColor =
      (if w = .ai then some col else s.aiLastColor) :=
  ⟨rfl, rfl, rfl, rfl, rfl, rfl, rfl, rfl⟩

theorem cellsFrame_runStep (s : GameState) (a : GameAction) :
    cellsFrame s.cells (runStep s a).cells := by
  cases a with
  | playerChoose col =>
    show cellsFrame s.cells (checkGameOver (handlePlayerChooseColor s col)).cells
    rw [(checkGameOver_fields (handlePlayerChooseColor s col)).1]
    unfold handlePlayerChooseColor
    split
    · exact cellsFrame_refl _
    · split
      · exact cellsFrame_refl _
      · exact cellsFrame_applyMoveCells s.cells .player col
  | aiTurn =>
    show cellsFrame s.cells (checkGameOver (aiStep s)).cells
    rw [(checkGameOver_fields (aiStep s)).1]
    unfold aiStep
    split
    · exact cellsFrame_refl _
    · rcases aiChoose s with _ | b
      · exact cellsFrame_refl _
      · exact cellsFrame_applyMoveCells s.cells .ai b

theorem cellsFrame_runActions (acts : List GameAction) :
    ∀ (s : GameState), cellsFrame s.cells (runActions s acts).cells := by
  induction acts with
  | nil => intro s; exact cellsFrame_refl _
  | cons a rest ih =>
    intro s
    show cellsFrame s.cells (runActions (runStep s a) rest).cells
    exact cellsFrame_trans (cellsFrame_runStep s a) (ih (runStep s a))

theorem WFCells_of_cellsFrame (cs cs2 : List Cell) (h : cellsFrame cs cs2)
    (hWF : WFCells cs) : WFCells cs2 := by
  intro i hi
  rw [h.1] at hi
  obtain ⟨hid, _, _, _, hnb, _⟩ := h.2 i
  constructor
  · rw [hid]
    exact (hWF i hi).1
  · intro j hj
    rw [hnb] at hj
    rw [h.1]
    exact (hWF i hi).2 j hj

theorem lastColorOf_checkGameOver (t : GameState) (w : Side) :
    lastColorOf (checkGameOver t) w = lastColorOf t w := by
  cases w
  · show (checkGameOver t).playerLastColor = t.playerLastColor
    exact (checkGameOver_fields t).2.2.1
  · show (checkGameOver t).aiLastColor = t.aiLastColor
    exact (checkGameOver_fields t).2.2.2.1

theorem handlePlayer_cases (s : GameState) (col : String) :
    handlePlayerChooseColor s col = s ∨
    (s.turn = .player ∧ s.gameOver = none ∧
      (computeLegalColors s .player).contains col = true ∧
      handlePlayerChooseColor s col = { applyMove s .player col with turn := .ai }) := by
  unfold handlePlayerChooseColor
  split
  · left; rfl
  · split
    · left; rfl
    · right
      rename_i h1 h2
      push_neg at h1
      refine ⟨h1.1, h1.2, ?_, rfl⟩
      simpa using h2

theorem aiStep_cases (s : GameState) :
    aiStep s = s ∨
    (s.turn = .ai ∧ s.gameOver = none ∧
      ((aiChoose s = none ∧ aiStep s = { s with turn := .player }) ∨
        (∃ b, aiChoose s = some b ∧
          aiStep s = { applyMove s .ai b with turn := .player }))) := by
  by_cases h1 : s.turn ≠ .ai ∨ s.gameOver ≠ none
  · left
    simp only [aiStep, if_pos h1]
  · right
    push_neg at h1
    refine ⟨h1.1, h1.2, ?_⟩
    rcases hch : aiChoose s with _ | b
    · left
      refine ⟨rfl, ?_⟩
      unfold aiStep
      rw [if_neg (by simp [h1.1, h1.2]), hch]
    · right
      refine ⟨b, rfl, ?_⟩
      unfold aiStep
      rw [if_neg (by simp [h1.1, h1.2]), hch]

theorem runStep_owner_mono (s : GameState) (a : GameAction) (j : Nat) (o : Side)
    (hWF : WFCells s.cells) (h : (getCell s.cells j).owner = some o) :
    (getCell (runStep s a).cells j).owner = some o := by
  cases a with
  | playerChoose col =>
    show (getCell (checkGameOver (handlePlayerChooseColor s col)).cells j).owner = some o
    rw [(checkGameOver_fields _).1]
    rcases handlePlayer_cases s col with hc | ⟨_, _, _, hc⟩
    · rw [hc]; exact h
    · rw [hc]
      exact (applyMoveCells_props s.cells .player col hWF).2.2.1 j o h
  | aiTurn =>
    show (getCell (checkGameOver (aiStep s)).cells j).owner = some o
    rw [(checkGameOver_fields _).1]
    rcases aiStep_cases s with hc | ⟨_, _, ⟨_, hc⟩ | ⟨b, _, hc⟩⟩
    · rw [hc]; exact h
    · rw [hc]; exact h
    · rw [hc]
      exact (applyMoveCells_props s.cells .ai b hWF).2.2.1 j o h

theorem runStep_WF (s : GameState) (a : GameAction) (hWF : WFCells s.cells) :
    WFCells (runStep s a).cells :=
  WFCells_of_cellsFrame s.cells (runStep s a).cells (cellsFrame_runStep s a) hWF

theorem runActions_owner_mono (acts : List GameAction) :
    ∀ (s : GameState) (j : Nat) (o : Side), WFCells s.cells →
    (getCell s.cells j).owner = some o →
    (getCell (runActions s acts).cells j).owner = some o := by
  induction acts with
  | nil => intro s j o _ h; exact h
  | cons a rest ih =>
    intro s j o hWF h
    show (getCell (runActions (runStep s a) rest).cells j).owner = some o
    exact ih (runStep s a) j o (runStep_WF s a hWF) (runStep_owner_mono s a j o hWF h)

theorem runActions_WF (acts : List GameAction) :
    ∀ (s : GameState), WFCells s.cells → WFCells (runActions s acts).cells := by
  induction acts with
  | nil => intro s h; exact h
  | cons a rest ih =>
    intro s hWF
    exact ih (runStep s a) (runStep_WF s a hWF)

theorem checkGameOver_of_terminal (s : GameState) (r : Side) (h : s.gameOver = some r) :
    checkGameOver s = s := by
  unfold checkGameOver
  rw [if_pos (by simp [h])]

theorem runStep_terminal (s : GameState) (a : GameAction) (r : Side)
    (h : s.gameOver = some r) : runStep s a = s := by
  cases a with
  | playerChoose col =>
    show checkGameOver (handlePlayerChooseColor s col) = s
    have h1 : handlePlayerChooseColor s col = s := by
      unfold handlePlayerChooseColor
      rw [if_pos (Or.inr (by simp [h]))]
    rw [h1]
    exact checkGameOver_of_terminal s r h
  | aiTurn =>
    show checkGameOver (aiStep s) = s
    have h1 : aiStep s = s := by
      unfold aiStep
      rw [if_pos (Or.inr (by simp [h]))]
    rw [h1]
    exact checkGameOver_of_terminal s r h

theorem runActions_terminal (acts : List GameAction) :
    ∀ (s : GameState) (r : Side), s.gameOver = some r → runActions s acts = s := by
  induction acts with
  | nil => intro s r _; rfl
  | cons a rest ih =>
    intro s r h
    show runActions (runStep s a) rest = s
    rw [runStep_terminal s a r h]
    exact ih s r h

theorem applyMoveCells_other_owner_color (cs : List Cell) (w w2 : Side) (col : String)
    (i : Nat) (hWF : WFCells cs) (hne : w ≠ w2)
    (hown : (getCell cs i).owner = some w) :
    (getCell (applyMoveCells cs w2 col) i).owner = some w ∧
    (getCell (applyMoveCells cs w2 col) i).color = (getCell cs i).color := by
  obtain ⟨_, _, hmono, _, hcolor, _⟩ := applyMoveCells_props cs w2 col hWF
  have h2 : (getCell (applyMoveCells cs w2 col) i).owner = some w := hmono i w hown
  have h3 := hcolor i
  rw [h2, if_neg (by simp [hne])] at h3
  exact ⟨h2, h3⟩

theorem runStep_startCell_stable (s : GameState) (a : GameAction) (w : Side) (i : Nat)
    (hWF : WFCells s.cells)
    (hown : (getCell s.cells i).owner = some w)
    (hafter : lastColorOf (runStep s a) w = none) :
    lastColorOf s w = none ∧
    (getCell (runStep s a).cells i).owner = some w ∧
    (getCell (runStep s a).cells i).color = (getCell s.cells i).color := by
  cases a with
  | playerChoose col =>
    have hafter2 : lastColorOf (checkGameOver (handlePlayerChooseColor s col)) w = none :=
      hafter
    rw [lastColorOf_checkGameOver] at hafter2
    show lastColorOf s w = none ∧
      (getCell (checkGameOver (handlePlayerChooseColor s col)).cells i).owner = some w ∧
      (getCell (checkGameOver (handlePlayerChooseColor s col)).cells i).color =
        (getCell s.cells i).color
    rw [(checkGameOver_fields (handlePlayerChooseColor s col)).1]
    rcases handlePlayer_cases s col with hc | ⟨_, _, _, hc⟩
    · rw [hc] at hafter2 ⊢
      exact ⟨hafter2, hown, rfl⟩
    · rw [hc] at hafter2 ⊢
      cases w with
      | player =>
        exfalso
        simp [lastColorOf, applyMove] at hafter2
      | ai =>
        have hl : lastColorOf s .ai = none := by
          simpa [lastColorOf, applyMove] using hafter2
        have hoc := applyMoveCells_other_owner_color s.cells .ai .player col i hWF
          (by simp) hown
        exact ⟨hl, hoc.1, hoc.2⟩
  | aiTurn =>
    have hafter2 : lastColorOf (checkGameOver (aiStep s)) w = none := hafter
    rw [lastColorOf_checkGameOver] at hafter2
    show lastColorOf s w = none ∧
      (getCell (checkGameOver (aiStep s)).cells i).owner = some w ∧
      (getCell (checkGameOver (aiStep s)).cells i).color = (getCell s.cells i).color
    rw [(checkGameOver_fields (aiStep s)).1]
    rcases aiStep_cases s with hc | ⟨_, _, ⟨_, hc⟩ | ⟨b, _, hc⟩⟩
    · rw [hc] at hafter2 ⊢
      exact ⟨hafter2, hown, rfl⟩
    · rw [hc] at hafter2 ⊢
      have hl : lastColorOf s w = none := by
        cases w
        · simpa [lastColorOf] using hafter2
        · simpa [lastColorOf] using hafter2
      exact ⟨hl, hown, rfl⟩
    · rw [hc] at hafter2 ⊢
      cases w with
      | ai =>
        exfalso
        simp [lastColorOf, applyMove] at hafter2
      | player =>
        have hl : lastColorOf s .player = none := by
          simpa [lastColorOf, applyMove] using hafter2
        have hoc := applyMoveCells_other_owner_color s.cells .player .ai b i hWF
          (by simp) hown
        exact ⟨hl, hoc.1, hoc.2⟩

theorem runActions_startCell_stable (acts : List GameAction) :
    ∀ (s : GameState) (w : Side) (i : Nat), WFCells s.cells →
    (getCell s.cells i).owner = some w →
    lastColorOf (runActions s acts) w = none →
    lastColorOf s w = none ∧
    (getCell (runActions s acts).cells i).owner = some w ∧
    (getCell (runActions s acts).cells i).color = (getCell s.cells i).color := by
  induction acts with
  | nil =>
    intro s w i _ hown hafter
    exact ⟨hafter, hown, rfl⟩
  | cons a rest ih =>
    intro s w i hWF hown hafter
    have hafter2 : lastColorOf (runActions (runStep s a) rest) w = none := hafter
    obtain ⟨h1, h2, h3⟩ := ih (runStep s a) w i (runStep_WF s a hWF)
      (runStep_owner_mono s a i w hWF hown) hafter2
    obtain ⟨g1, g2, g3⟩ := runStep_startCell_stable s a w i hWF hown h1
    exact ⟨g1, h2, h3.trans g3⟩

theorem runStep_config (s : GameState) (a : GameAction) :
    (runStep s a).palette = s.palette ∧
    (runStep s a).playerStartId = s.playerStartId ∧
    (runStep s a).aiStartId = s.aiStartId := by
  cases a with
  | playerChoose col =>
    have hcg := checkGameOver_fields (handlePlayerChooseColor s col)
    show (checkGameOver (handlePlayerChooseColor s col)).palette = s.palette ∧
      (checkGameOver (handlePlayerChooseColor s col)).playerStartId = s.playerStartId ∧
      (checkGameOver (handlePlayerChooseColor s col)).aiStartId = s.aiStartId
    rw [hcg.2.2.2.2.2.2, hcg.2.2.2.2.1, hcg.2.2.2.2.2.1]
    rcases handlePlayer_cases s col with hc | ⟨_, _, _, hc⟩
    · rw [hc]; exact ⟨rfl, rfl, rfl⟩
    · rw [hc]; exact ⟨rfl, rfl, rfl⟩
  | aiTurn =>
    have hcg := checkGameOver_fields (aiStep s)
    show (checkGameOver (aiStep s)).palette = s.palette ∧
      (checkGameOver (aiStep s)).playerStartId = s.playerStartId ∧
      (checkGameOver (aiStep s)).aiStartId = s.aiStartId
    rw [hcg.2.2.2.2.2.2, hcg.2.2.2.2.1, hcg.2.2.2.2.2.1]
    rcases aiStep_cases s with hc | ⟨_, _, ⟨_, hc⟩ | ⟨b, _, hc⟩⟩
    · rw [hc]; exact ⟨rfl, rfl, rfl⟩
    · rw [hc]; exact ⟨rfl, rfl, rfl⟩
    · rw [hc]; exact ⟨rfl, rfl, rfl⟩

theorem runActions_config (acts : List GameAction) :
    ∀ (s : GameState),
    (runActions s acts).palette = s.palette ∧
    (runActions s acts).playerStartId = s.playerStartId ∧
    (runActions s acts).aiStartId = s.aiStartId := by
  induction acts with
  | nil => intro s; exact ⟨rfl, rfl, rfl⟩
  | cons a rest ih =>
    intro s
    obtain ⟨h1, h2, h3⟩ := ih (runStep s a)
    obtain ⟨g1, g2, g3⟩ := runStep_config s a
    exact ⟨h1.trans g1, h2.trans g2, h3.trans g3⟩

theorem startIdOf_runActions (acts : List GameAction) (s : GameState) (w : Side) :
    startIdOf (runActions s acts) w = startIdOf s w := by
  obtain ⟨_, h2, h3⟩ := runActions_config acts s
  cases w
  · show (runActions s acts).playerStartId = s.playerStartId
    exact h2
  · show (runActions s acts).aiStartId = s.aiStartId
    exact h3

theorem pickFold_acc_le (legal : List String) (counts : String → Int) :
    ∀ (l : List String) (acc : Option String × Int),
    acc.2 ≤ (l.foldl (pickStep legal counts) acc).2 := by
  intro l
  induction l with
  | nil => intro acc; exact le_refl _
  | cons c rest ih =>
    intro acc
    rw [List.foldl_cons]
    refine le_trans ?_ (ih (pickStep legal counts acc c))
    unfold pickStep
    split
    · split
      · rename_i h
        exact le_of_lt h
      · exact le_refl _
    · exact le_refl _

theorem pickFold_mem_le (legal : List String) (counts : String → Int) :
    ∀ (l : List String) (acc : Option String × Int) (c : String),
    c ∈ l → legal.contains c = true →
    counts c ≤ (l.foldl (pickStep legal counts) acc).2 := by
  intro l
  induction l with
  | nil => intro acc c hc _; simp at hc
  | cons d rest ih =>
    intro acc c hc hl
    rw [List.foldl_cons]
    rcases List.mem_cons.mp hc with rfl | hc
    · refine le_trans ?_ (pickFold_acc_le legal counts rest (pickStep legal counts acc c))
      unfold pickStep
      rw [if_pos hl]
      split
      · exact le_refl _
      · rename_i h
        exact le_of_not_lt h
    · exact ih (pickStep legal counts acc d) c hc hl

theorem pickFold_result (legal : List String) (counts : String → Int) :
    ∀ (l : List String) (acc : Option String × Int),
    (l.foldl (pickStep legal counts) acc) = acc ∨
    (∃ c, c ∈ l ∧ legal.contains c = true ∧
      (l.foldl (pickStep legal counts) acc) = (some c, counts c) ∧ acc.2 < counts c) := by
  intro l
  induction l with
  | nil => intro acc; left; rfl
  | cons d rest ih =>
    intro acc
    rw [List.foldl_cons]
    by_cases hl : legal.contains d = true
    · by_cases hcnt : acc.2 < counts d
      · have hstep : pickStep legal counts acc d = (some d, counts d) := by
          unfold pickStep
          rw [if_pos hl, if_pos hcnt]
        rw [hstep]
        rcases ih (some d, counts d) with h | ⟨c, hc, hcl, heq, hlt⟩
        · right; exact ⟨d, by simp, hl, h, hcnt⟩
        · right
          refine ⟨c, List.mem_cons_of_mem d hc, hcl, heq, ?_⟩
          exact lt_trans hcnt hlt
      · have hstep : pickStep legal counts acc d = acc := by
          unfold pickStep
          rw [if_pos hl, if_neg hcnt]
        rw [hstep]
        rcases ih acc with h | ⟨c, hc, hcl, heq, hlt⟩
        · left; exact h
        · right; exact ⟨c, List.mem_cons_of_mem d hc, hcl, heq, hlt⟩
    · have hstep : pickStep legal counts acc d = acc := by
        unfold pickStep
        rw [if_neg hl]
      rw [hstep]
      rcases ih acc with h | ⟨c, hc, hcl, heq, hlt⟩
      · left; exact h
      · right; exact ⟨c, List.mem_cons_of_mem d hc, hcl, heq, hlt⟩

theorem pickFold_tiebreak (legal : List String) (counts : String → Int) :
    ∀ (l : List String) (acc : Option String × Int) (c : String),
    (l.foldl (pickStep legal counts) acc) = (some c, counts c) → acc.2 < counts c →
    ∃ p1 p2, l = p1 ++ c :: p2 ∧
      ∀ d ∈ p1, legal.contains d = true → counts d < counts c := by
  intro l
  induction l with
  | nil =>
    intro acc c h hlt
    rw [show ([] : List String).foldl (pickStep legal counts) acc = acc from rfl] at h
    rw [h] at hlt
    exact absurd hlt (lt_irrefl _)
  | cons d rest ih =>
    intro acc c h hlt
    rw [List.foldl_cons] at h
    by_cases hl : legal.contains d = true
    · by_cases hcnt : acc.2 < counts d
      · have hstep : pickStep legal counts acc d = (some d, counts d) := by
          unfold pickStep
          rw [if_pos hl, if_pos hcnt]
        rw [hstep] at h
        rcases pickFold_result legal counts rest (some d, counts d) with hr | ⟨c2, hc2, hcl2, heq, hlt2⟩
        · rw [hr] at h
          have hdc : d = c := by
            have := congrArg Prod.fst h
            simpa using this
          subst hdc
          exact ⟨[], rest, rfl, by simp⟩
        · rw [heq] at h
          have hc2c : c2 = c := by
            have := congrArg Prod.fst h
            simpa using this
          rw [hc2c] at heq hlt2
          have hdlt : counts d < counts c := hlt2
          obtain ⟨p1, p2, hsplit, hall⟩ := ih (some d, counts d) c heq hdlt
          refine ⟨d :: p1, p2, by rw [hsplit]; simp, ?_⟩
          intro x hx hxl
          rcases List.mem_cons.mp hx with rfl | hx
          · exact hdlt
          · exact hall x hx hxl
      · have hstep : pickStep legal counts acc d = acc := by
          unfold pickStep
          rw [if_pos hl, if_neg hcnt]
        rw [hstep] at h
        obtain ⟨p1, p2, hsplit, hall⟩ := ih acc c h hlt
        refine ⟨d :: p1, p2, by rw [hsplit]; simp, ?_⟩
        intro x hx hxl
        rcases List.mem_cons.mp hx with rfl | hx
        · exact lt_of_le_of_lt (le_of_not_lt hcnt) hlt
        · exact hall x hx hxl
    · have hstep : pickStep legal counts acc d = acc := by
        unfold pickStep
        rw [if_neg hl]
      rw [hstep] at h
      obtain ⟨p1, p2, hsplit, hall⟩ := ih acc c h hlt
      refine ⟨d :: p1, p2, by rw [hsplit]; simp, ?_⟩
      intro x hx hxl
      rcases List.mem_cons.mp hx with rfl | hx
      · exact absurd hxl hl
      · exact hall x hx hxl

theorem applyMoveCells_eq_initBfs (cs : List Cell) (w : Side) (col : String) :
    applyMoveCells cs w col =
      if (ownedIdsOf cs w).isEmpty then cs
      else (bfsRun w col (bfsFuel cs (ownedIdsOf cs w)) (initBfs cs w col)).cells := rfl

theorem bfsRun_inv_any (orig : List Cell) (w : Side) (col : String) (hWF : WFCells orig) :
    ∀ (fuel : Nat) (st : BfsState), BfsInv orig w col st →
    BfsInv orig w col (bfsRun w col fuel st) := by
  intro fuel
  induction fuel with
  | zero => intro st h; exact h
  | succ n ih =>
    intro st hinv
    cases hq : st.queue with
    | nil =>
      rw [bfsRun_queue_nil w col (n + 1) st hq]
      exact hinv
    | cons a t =>
      have hrun : bfsRun w col (n + 1) st = bfsRun w col n (bfsStep w col st) := by
        simp [bfsRun, hq]
      rw [hrun]
      exact ih (bfsStep w col st) (bfsStep_spec orig w col hWF st hinv).1

theorem pickFold_nil_legal (counts : String → Int) :
    ∀ (l : List String) (acc : Option String × Int),
    l.foldl (pickStep [] counts) acc = acc := by
  intro l
  induction l with
  | nil => intro acc; rfl
  | cons d rest ih =>
    intro acc
    rw [List.foldl_cons]
    have hstep : pickStep [] counts acc d = acc := by
      unfold pickStep
      rw [if_neg (by simp [List.contains])]
    rw [hstep]
    exact ih acc

theorem aiChoose_of_empty_legal (s : GameState)
    (hempty : computeLegalColors s .ai = []) : aiChoose s = none := by
  unfold aiChoose
  rw [hempty]
  dsimp only
  rw [pickFold_nil_legal]
  apply List.find?_eq_none.mpr
  intro x _
  simp [List.contains]

theorem borderEmpty_iff (s : GameState) :
    (borderCellIds s).isEmpty = true ↔ ∀ c ∈ s.cells, touchesBorder c = false := by
  unfold borderCellIds
  rw [List.isEmpty_iff, List.map_eq_nil_iff, List.filter_eq_nil_iff]
  constructor
  · intro h c hc
    have := h c hc
    simpa using this
  · intro h c hc
    simp [h c hc]

theorem borderAll_iff (s : GameState) (w : Side) (hWF : WFCells s.cells) :
    ((borderCellIds s).all (fun i => decide ((getCell s.cells i).owner = some w)) = true) ↔
      (∀ c ∈ s.cells, touchesBorder c = true → c.owner = some w) := by
  rw [List.all_eq_true]
  constructor
  · intro h c hc htb
    rcases (mem_iff_getCell s.cells c).mp hc with ⟨k, hk, rfl⟩
    have hmem : k ∈ borderCellIds s := by
      unfold borderCellIds
      rw [mem_filter_map_id s.cells touchesBorder k (fun a ha => (hWF a ha).1)]
      exact ⟨hk, htb⟩
    have := h k hmem
    simpa using this
  · intro h i hi
    unfold borderCellIds at hi
    rw [mem_filter_map_id s.cells touchesBorder i (fun a ha => (hWF a ha).1)] at hi
    have := h (getCell s.cells i) (getCell_mem s.cells i hi.1) hi.2
    simpa using this

theorem filter_border_map_congr :
    ∀ (cs cs2 : List Cell), cs2.length = cs.length →
    (∀ j, frameAgrees (getCell cs2 j) (getCell cs j)) →
    (cs2.filter touchesBorder).map (fun c => c.id) =
      (cs.filter touchesBorder).map (fun c => c.id) := by
  intro cs
  induction cs with
  | nil =>
    intro cs2 hlen _
    rw [List.length_eq_zero.mp hlen]
  | cons c tl ih =>
    intro cs2 hlen hfa
    cases cs2 with
    | nil => simp at hlen
    | cons c2 tl2 =>
      have h0 := hfa 0
      have hid : c2.id = c.id := h0.1
      have hpoly : c2.polygon = c.polygon := h0.2.2.2.1
      have htb : touchesBorder c2 = touchesBorder c := by
        unfold touchesBorder
        rw [hpoly]
      have htl : (tl2.filter touchesBorder).map (fun c => c.id) =
          (tl.filter touchesBorder).map (fun c => c.id) :=
        ih tl2 (by simpa using hlen) (fun j => hfa (j + 1))
      by_cases hb : touchesBorder c = true
      · rw [List.filter_cons_of_pos hb, List.filter_cons_of_pos (htb.trans hb),
          List.map_cons, List.map_cons, htl, hid]
      · rw [List.filter_cons_of_neg (by rw [htb]; simpa using hb),
          List.filter_cons_of_neg (by simpa using hb)]
        exact htl

/-- Claim C1: after applyMove(side, color), a cell is owned by the moving
side exactly when it is reachable from the side's pre-move territory
through a path of cells each already side-owned or unowned with current
color equal to the chosen color; hence every such reachable cell is owned
post-move, and no cell whose every path from the territory crosses an
opponent-owned cell (so that no all-good path exists) is annexed. -/
theorem applyMove_flood_reach (cs : List Cell) (w : Side) (col : String)
    (hWF : WFCells cs) (c : Nat) :
    (getCell (applyMoveCells cs w col) c).owner = some w ↔ Reach cs w col c :=
  (applyMoveCells_props cs w col hWF).2.2.2.1 c

theorem applyMove_flood_reach_witness :
    WFCells exBoard4 ∧
      ((getCell (applyMoveCells exBoard4 .player ("yellowgreen")) 1).owner =
          some .player ↔ Reach exBoard4 .player ("yellowgreen") 1) :=
  ⟨by decide, applyMove_flood_reach exBoard4 .player ("yellowgreen") (by decide) 1⟩

/-- Claim C2: in any state reached by a run of events from a start state in
which the side owns its starting cell, the legal colors are exactly the
palette minus the two last colors, minus additionally the side's starting
color (the color its starting cell had at game start) when the side has not
moved yet; consequently the legal set is a subset of the palette and never
contains a last color once set. -/
theorem legalColors_palette_minus (s0 : GameState) (acts : List GameAction) (w : Side)
    (i : Nat) (c : String) (hWF : WFCells s0.cells)
    (hpal : ("" : String) ∉ s0.palette)
    (hid : startIdOf s0 w = some i)
    (hown : (getCell s0.cells i).owner = some w) :
    c ∈ computeLegalColors (runActions s0 acts) w ↔
      (c ∈ s0.palette ∧ some c ≠ lastColorOf (runActions s0 acts) w ∧
        some c ≠ lastColorOf (runActions s0 acts) w.other ∧
        (lastColorOf (runActions s0 acts) w = none →
          c ≠ (getCell s0.cells i).color)) := by
  have hpalr : (runActions s0 acts).palette = s0.palette := (runActions_config acts s0).1
  have hpal2 : ("" : String) ∉ (runActions s0 acts).palette := by
    rw [hpalr]; exact hpal
  rw [mem_computeLegalColors (runActions s0 acts) w c hpal2, hpalr]
  have hcur : lastColorOf (runActions s0 acts) w = none →
      currentStartColor (runActions s0 acts) w = some ((getCell s0.cells i).color) := by
    intro hnone
    obtain ⟨_, _, hcol⟩ := runActions_startCell_stable acts s0 w i hWF hown hnone
    unfold currentStartColor
    rw [startIdOf_runActions acts s0 w, hid]
    dsimp only
    rw [hcol]
  constructor
  · rintro ⟨h1, h2, h3, h4⟩
    refine ⟨h1, h2, h3, fun hn => ?_⟩
    have h5 := h4 hn
    rw [hcur hn] at h5
    simpa using h5
  · rintro ⟨h1, h2, h3, h4⟩
    refine ⟨h1, h2, h3, fun hn => ?_⟩
    rw [hcur hn]
    simpa using h4 hn

theorem legalColors_palette_minus_witness :
    WFCells exState.cells ∧ ("" : String) ∉ exState.palette ∧
      startIdOf exState .player = some 0 ∧
      (getCell exState.cells 0).owner = some .player ∧
      (("khaki" : String) ∈ computeLegalColors (runActions exState [GameAction.aiTurn]) .player ↔
        (("khaki" : String) ∈ exState.palette ∧
          some ("khaki") ≠ lastColorOf (runActions exState [GameAction.aiTurn]) .player ∧
          some ("khaki") ≠ lastColorOf (runActions exState [GameAction.aiTurn]) Side.player.other ∧
          (lastColorOf (runActions exState [GameAction.aiTurn]) .player = none →
            ("khaki" : String) ≠ (getCell exState.cells 0).color))) :=
  ⟨by decide, by decide, by decide, by decide,
    legalColors_palette_minus exState [GameAction.aiTurn] .player 0 ("khaki")
      (by decide) (by decide) (by decide) (by decide)⟩

/-- Claim C4: ownership is monotone along any sequence of engine events — a
cell owned by a side stays owned by that side — and no single applyMove
changes the owner of any already-owned cell, in particular one owned by the
opposing side. -/
theorem ownership_monotone (s0 : GameState) (acts : List GameAction) (j : Nat) (o : Side)
    (hWF : WFCells s0.cells) (h : (getCell s0.cells j).owner = some o) :
    (getCell (runActions s0 acts).cells j).owner = some o ∧
    (∀ (w : Side) (col : String),
      (getCell (applyMoveCells s0.cells w col) j).owner = some o) :=
  ⟨runActions_owner_mono acts s0 j o hWF h,
   fun w col => (applyMoveCells_props s0.cells w col hWF).2.2.1 j o h⟩

theorem ownership_monotone_witness :
    WFCells exState.cells ∧ (getCell exState.cells 3).owner = some .ai ∧
      ((getCell (runActions exState [GameAction.playerChoose ("yellowgreen")]).cells 3).owner =
          some .ai ∧
        ∀ (w : Side) (col : String),
          (getCell (applyMoveCells exState.cells w col) 3).owner = some .ai) :=
  ⟨by decide, by decide,
    ownership_monotone exState [GameAction.playerChoose ("yellowgreen")] 3 .ai
      (by decide) (by decide)⟩

/-- Claim C6: an applyMove request that is illegal — game already decided,
not the requesting side's turn, or color not legal — is rejected with the
entire game state unchanged; the AI effect likewise does nothing when it is
not its turn or the game is over. -/
theorem illegal_move_rejected :
    (∀ (s : GameState) (col : String),
      (s.gameOver ≠ none ∨ s.turn ≠ .player ∨ col ∉ computeLegalColors s .player) →
      handlePlayerChooseColor s col = s) ∧
    (∀ s : GameState, (s.gameOver ≠ none ∨ s.turn ≠ .ai) → aiStep s = s) := by
  constructor
  · intro s col h
    unfold handlePlayerChooseColor
    by_cases h1 : s.turn ≠ Side.player ∨ s.gameOver ≠ none
    · rw [if_pos h1]
    · rw [if_neg h1]
      push_neg at h1
      have hcol : col ∉ computeLegalColors s .player := by
        rcases h with hg | ht | hc
        · exact absurd hg (by simp [h1.2])
        · exact absurd ht (by simp [h1.1])
        · exact hc
      have hfalse : (computeLegalColors s .player).contains col = false := by
        rw [← Bool.not_eq_true]
        intro hc
        exact hcol ((contains_iff_mem _ _).mp hc)
      rw [if_pos (by rw [hfalse]; rfl)]
  · intro s h
    unfold aiStep
    rcases h with hg | ht
    · rw [if_pos (Or.inr hg)]
    · rw [if_pos (Or.inl ht)]

theorem illegal_move_rejected_witness :
    (exTerminal.gameOver ≠ none) ∧
      handlePlayerChooseColor exTerminal ("khaki") = exTerminal ∧
      aiStep exTerminal = exTerminal :=
  ⟨by decide,
    illegal_move_rejected.1 exTerminal ("khaki") (Or.inl (by decide)),
    illegal_move_rejected.2 exTerminal (Or.inl (by decide))⟩

/-- Claim C7: after every successful applyMove the turn belongs to the side
that did not just move — the player handler hands the turn to the AI, and
the AI effect hands it back to the player — also through the subsequent
win-check effect. -/
theorem turn_alternation :
    (∀ (s : GameState) (col : String), s.turn = .player → s.gameOver = none →
      col ∈ computeLegalColors s .player →
      (handlePlayerChooseColor s col).turn = .ai ∧
        (runStep s (GameAction.playerChoose col)).turn = .ai) ∧
    (∀ s : GameState, s.turn = .ai → s.gameOver = none →
      (aiStep s).turn = .player ∧ (runStep s GameAction.aiTurn).turn = .player) := by
  constructor
  · intro s col ht hg hl
    have hh : (handlePlayerChooseColor s col).turn = .ai := by
      have hct : (computeLegalColors s Side.player).contains col = true :=
        (contains_iff_mem _ _).mpr hl
      unfold handlePlayerChooseColor
      rw [if_neg (by simp [ht, hg]), if_neg (by rw [hct]; simp)]
    refine ⟨hh, ?_⟩
    show (checkGameOver (handlePlayerChooseColor s col)).turn = .ai
    rw [(checkGameOver_fields _).2.1, hh]
  · intro s ht hg
    have hh : (aiStep s).turn = .player := by
      unfold aiStep
      rw [if_neg (by simp [ht, hg])]
    refine ⟨hh, ?_⟩
    show (checkGameOver (aiStep s)).turn = .player
    rw [(checkGameOver_fields _).2.1, hh]

theorem turn_alternation_witness :
    exState.turn = .player ∧ exState.gameOver = none ∧
      (("yellowgreen" : String) ∈ computeLegalColors exState .player) ∧
      ((handlePlayerChooseColor exState ("yellowgreen")).turn = .ai ∧
        (runStep exState (GameAction.playerChoose ("yellowgreen"))).turn = .ai) ∧
      exStateAiTurn.turn = .ai ∧ exStateAiTurn.gameOver = none ∧
      ((aiStep exStateAiTurn).turn = .player ∧
        (runStep exStateAiTurn GameAction.aiTurn).turn = .player) :=
  ⟨rfl, rfl, by decide,
    turn_alternation.1 exState ("yellowgreen") rfl rfl (by decide),
    rfl, rfl, turn_alternation.2 exStateAiTurn rfl rfl⟩

/-- Claim C9: engine events change only the color and owner fields of
cells — id, site, rendered path, polygon boundary, neighbor list, corner
flag and the number of cells are unchanged by every move, and hence the set
of border cell ids is invariant across the whole game. -/
theorem move_frame_geometry (s0 : GameState) (acts : List GameAction) (j : Nat) :
    (runActions s0 acts).cells.length = s0.cells.length ∧
    (getCell (runActions s0 acts).cells j).id = (getCell s0.cells j).id ∧
    (getCell (runActions s0 acts).cells j).polygon = (getCell s0.cells j).polygon ∧
    (getCell (runActions s0 acts).cells j).neighbors = (getCell s0.cells j).neighbors ∧
    (getCell (runActions s0 acts).cells j).site = (getCell s0.cells j).site ∧
    (getCell (runActions s0 acts).cells j).path = (getCell s0.cells j).path ∧
    (getCell (runActions s0 acts).cells j).isCorner = (getCell s0.cells j).isCorner ∧
    borderCellIds (runActions s0 acts) = borderCellIds s0 := by
  obtain ⟨hlen, hfa⟩ := cellsFrame_runActions acts s0
  obtain ⟨h1, h2, h3, h4, h5, h6⟩ := hfa j
  refine ⟨hlen, h1, h4, h5, h2, h3, h6, ?_⟩
  unfold borderCellIds
  exact filter_border_map_congr s0.cells (runActions s0 acts).cells hlen hfa

/-- Claim C10: when it is the AI's turn with the game in progress and its
legal-color set is empty, the AI effect applies no move — cells and both
last colors are unchanged — yet the turn still flips to the player. -/
theorem aiStep_empty_legal (s : GameState) (hturn : s.turn = .ai)
    (hgo : s.gameOver = none) (hempty : computeLegalColors s .ai = []) :
    (aiStep s).cells = s.cells ∧ (aiStep s).playerLastColor = s.playerLastColor ∧
    (aiStep s).aiLastColor = s.aiLastColor ∧ (aiStep s).gameOver = s.gameOver ∧
    (aiStep s).turn = .player := by
  have hch : aiChoose s = none := aiChoose_of_empty_legal s hempty
  have hstep : aiStep s = { s with turn := .player } := by
    unfold aiStep
    rw [if_neg (by simp [hturn, hgo]), hch]
  rw [hstep]
  exact ⟨rfl, rfl, rfl, rfl, rfl⟩

theorem aiStep_empty_legal_witness :
    exC10.turn = .ai ∧ exC10.gameOver = none ∧ computeLegalColors exC10 .ai = [] ∧
      ((aiStep exC10).cells = exC10.cells ∧
        (aiStep exC10).playerLastColor = exC10.playerLastColor ∧
        (aiStep exC10).aiLastColor = exC10.aiLastColor ∧
        (aiStep exC10).gameOver = exC10.gameOver ∧
        (aiStep exC10).turn = .player) :=
  ⟨rfl, rfl, by decide, aiStep_empty_legal exC10 rfl rfl (by decide)⟩

/-- Claim C3, counterexample: the claim's tallying over DISTINCT frontier
cells would select orangered here (distinct tallies tie at 1 and orangered
precedes goldenrod in the palette), but the source increments the counter
once per (owned cell, neighbor) pair, counts goldenrod twice through its
two AI-owned neighbors, and selects goldenrod. -/
theorem ai_tally_distinct_counterexample :
    aiChoose exC3 = some ("goldenrod") ∧
      specDistinctSelect exC3 = some ("orangered") ∧
      specDistinctTally exC3 ("orangered") = 1 ∧
      specDistinctTally exC3 ("goldenrod") = 1 ∧
      aiFrontierPairs exC3.cells (ownedIdsOf exC3.cells .ai) ("orangered") = 1 ∧
      aiFrontierPairs exC3.cells (ownedIdsOf exC3.cells .ai) ("goldenrod") = 2 := by
  decide

/-- Claim C3 (amended): whenever the AI's legal-color set is non-empty the
strategy produces a move — a legal color whose (owned cell, frontier
neighbor) pair tally is maximal among legal colors, every legal color
strictly earlier in the palette having a strictly smaller pair tally (the
palette-order tie-break); the tally weighs a frontier cell once per
adjacent AI-owned cell, not once per distinct cell. -/
theorem aiChoose_pair_tally_spec (s : GameState)
    (hne : computeLegalColors s .ai ≠ []) :
    ∃ c, aiChoose s = some c ∧ c ∈ computeLegalColors s .ai ∧
      (∀ d ∈ computeLegalColors s .ai,
        aiFrontierPairs s.cells (ownedIdsOf s.cells .ai) d ≤
          aiFrontierPairs s.cells (ownedIdsOf s.cells .ai) c) ∧
      ∃ p1 p2, s.palette = p1 ++ c :: p2 ∧
        ∀ d ∈ p1, d ∈ computeLegalColors s .ai →
          aiFrontierPairs s.cells (ownedIdsOf s.cells .ai) d <
            aiFrontierPairs s.cells (ownedIdsOf s.cells .ai) c := by
  obtain ⟨c0, hc0⟩ := List.exists_mem_of_ne_nil _ hne
  have hc0p : c0 ∈ s.palette := computeLegalColors_subset s .ai c0 hc0
  have hc0l : (computeLegalColors s .ai).contains c0 = true :=
    (contains_iff_mem _ c0).mpr hc0
  have hge := pickFold_mem_le (computeLegalColors s .ai) (aiCountsFn s)
    s.palette (none, -1) c0 hc0p hc0l
  rcases pickFold_result (computeLegalColors s .ai) (aiCountsFn s)
      s.palette (none, -1) with hr | ⟨c, hcp, hcl, heq, hlt⟩
  · exfalso
    rw [hr] at hge
    have hnn : (0 : Int) ≤ aiCountsFn s c0 := by
      unfold aiCountsFn
      exact Int.ofNat_nonneg _
    have hneg : aiCountsFn s c0 ≤ -1 := hge
    omega
  · have hchoose : aiChoose s = some c := by
      unfold aiChoose
      dsimp only
      rw [heq]
    refine ⟨c, hchoose, (contains_iff_mem _ c).mp hcl, ?_, ?_⟩
    · intro d hd
      have hdp : d ∈ s.palette := computeLegalColors_subset s .ai d hd
      have hdl : (computeLegalColors s .ai).contains d = true :=
        (contains_iff_mem _ d).mpr hd
      have hle := pickFold_mem_le (computeLegalColors s .ai) (aiCountsFn s)
        s.palette (none, -1) d hdp hdl
      rw [heq] at hle
      dsimp only at hle
      unfold aiCountsFn at hle
      exact_mod_cast hle
    · obtain ⟨p1, p2, hsplit, hall⟩ :=
        pickFold_tiebreak (computeLegalColors s .ai) (aiCountsFn s)
          s.palette (none, -1) c heq hlt
      refine ⟨p1, p2, hsplit, ?_⟩
      intro d hd hdl
      have hltc := hall d hd ((contains_iff_mem _ d).mpr hdl)
      unfold aiCountsFn at hltc
      exact_mod_cast hltc

theorem aiChoose_pair_tally_spec_witness :
    computeLegalColors exC3 .ai ≠ [] ∧
      (∃ c, aiChoose exC3 = some c ∧ c ∈ computeLegalColors exC3 .ai ∧
        (∀ d ∈ computeLegalColors exC3 .ai,
          aiFrontierPairs exC3.cells (ownedIdsOf exC3.cells .ai) d ≤
            aiFrontierPairs exC3.cells (ownedIdsOf exC3.cells .ai) c) ∧
        ∃ p1 p2, exC3.palette = p1 ++ c :: p2 ∧
          ∀ d ∈ p1, d ∈ computeLegalColors exC3 .ai →
            aiFrontierPairs exC3.cells (ownedIdsOf exC3.cells .ai) d <
              aiFrontierPairs exC3.cells (ownedIdsOf exC3.cells .ai) c) :=
  ⟨by decide, aiChoose_pair_tally_spec exC3 (by decide)⟩

/-- Claim C5: the win-check effect leaves a decided game unchanged; with no
border-touching cell it never concludes the game; otherwise it declares the
player (resp. the AI) winner exactly when every border-touching cell is
player-owned (resp. AI-owned) and stays in progress otherwise; it touches
nothing but the result field, and a decided result is terminal under all
further events. -/
theorem win_check_border_rule (s : GameState) (hWF : WFCells s.cells) :
    ((checkGameOver s).gameOver =
      if s.gameOver ≠ none then s.gameOver
      else if ∀ c ∈ s.cells, touchesBorder c = false then none
      else if ∀ c ∈ s.cells, touchesBorder c = true → c.owner = some Side.player then
        some Side.player
      else if ∀ c ∈ s.cells, touchesBorder c = true → c.owner = some Side.ai then
        some Side.ai
      else none) ∧
    (checkGameOver s).cells = s.cells ∧ (checkGameOver s).turn = s.turn ∧
    (∀ (acts : List GameAction) (r : Side), s.gameOver = some r →
      (runActions s acts).gameOver = some r) := by
  refine ⟨?_, (checkGameOver_fields s).1, (checkGameOver_fields s).2.1, ?_⟩
  · by_cases hgo : s.gameOver ≠ none
    · rw [if_pos hgo]
      unfold checkGameOver
      rw [if_pos hgo]
    · rw [if_neg hgo]
      push_neg at hgo
      by_cases h2 : (borderCellIds s).isEmpty = true
      · rw [if_pos ((borderEmpty_iff s).mp h2)]
        unfold checkGameOver
        rw [if_neg (by simp [hgo]), if_pos h2, hgo]
      · rw [if_neg (fun hp => h2 ((borderEmpty_iff s).mpr hp))]
        by_cases h3 : ((borderCellIds s).all
            (fun i => decide ((getCell s.cells i).owner = some Side.player))) = true
        · rw [if_pos ((borderAll_iff s Side.player hWF).mp h3)]
          unfold checkGameOver
          rw [if_neg (by simp [hgo]), if_neg h2, if_pos h3]
        · rw [if_neg (fun hp => h3 ((borderAll_iff s Side.player hWF).mpr hp))]
          by_cases h4 : ((borderCellIds s).all
              (fun i => decide ((getCell s.cells i).owner = some Side.ai))) = true
          · rw [if_pos ((borderAll_iff s Side.ai hWF).mp h4)]
            unfold checkGameOver
            rw [if_neg (by simp [hgo]), if_neg h2, if_neg h3, if_pos h4]
          · rw [if_neg (fun hp => h4 ((borderAll_iff s Side.ai hWF).mpr hp))]
            unfold checkGameOver
            rw [if_neg (by simp [hgo]), if_neg h2, if_neg h3, if_neg h4, hgo]
  · intro acts r hr
    rw [runActions_terminal acts s r hr, hr]

theorem win_check_border_rule_witness :
    WFCells exBorder.cells ∧
      (((checkGameOver exBorder).gameOver =
        if exBorder.gameOver ≠ none then exBorder.gameOver
        else if ∀ c ∈ exBorder.cells, touchesBorder c = false then none
        else if ∀ c ∈ exBorder.cells,
            touchesBorder c = true → c.owner = some Side.player then some Side.player
        else if ∀ c ∈ exBorder.cells,
            touchesBorder c = true → c.owner = some Side.ai then some Side.ai
        else none) ∧
      (checkGameOver exBorder).cells = exBorder.cells ∧
      (checkGameOver exBorder).turn = exBorder.turn ∧
      (∀ (acts : List GameAction) (r : Side), exBorder.gameOver = some r →
        (runActions exBorder acts).gameOver = some r)) :=
  ⟨by decide, win_check_border_rule exBorder (by decide)⟩

/-- Claim C8: for every board and applyMove call, the flood-fill loop
terminates — the fuel used by applyMove empties the queue and any larger
fuel gives the same final state — and each cell is enqueued at most once,
guaranteed by the visited set: at every iteration the queue has no
duplicates and is contained in the visited set. -/
theorem floodfill_terminates (cs : List Cell) (w : Side) (col : String)
    (hWF : WFCells cs) :
    (∀ f, bfsFuel cs (ownedIdsOf cs w) ≤ f →
      bfsRun w col f (initBfs cs w col) =
        bfsRun w col (bfsFuel cs (ownedIdsOf cs w)) (initBfs cs w col) ∧
      (bfsRun w col f (initBfs cs w col)).queue = []) ∧
    (∀ k, (bfsRun w col k (initBfs cs w col)).queue.Nodup ∧
      ∀ j ∈ (bfsRun w col k (initBfs cs w col)).queue,
        j ∈ (bfsRun w col k (initBfs cs w col)).visited) := by
  have hinit : BfsInv cs w col (initBfs cs w col) := bfsInv_init cs w col hWF
  have hm : bfsMeasure cs (initBfs cs w col) ≤ bfsFuel cs (ownedIdsOf cs w) := by
    unfold bfsMeasure bfsFuel initBfs
    dsimp only
    have hsub := Finset.card_le_card
      (Finset.sdiff_subset :
        (neighborUniverse cs) \ (ownedIdsOf cs w).toFinset ⊆ neighborUniverse cs)
    omega
  obtain ⟨hinvF, hqF⟩ := bfsRun_inv cs w col hWF (bfsFuel cs (ownedIdsOf cs w))
    (initBfs cs w col) hinit hm
  constructor
  · intro f hf
    obtain ⟨k, rfl⟩ := Nat.exists_eq_add_of_le hf
    constructor
    · rw [bfsRun_add w col (bfsFuel cs (ownedIdsOf cs w)) k (initBfs cs w col)]
      exact bfsRun_queue_nil w col k _ hqF
    · rw [bfsRun_add w col (bfsFuel cs (ownedIdsOf cs w)) k (initBfs cs w col),
        bfsRun_queue_nil w col k _ hqF]
      exact hqF
  · intro k
    have hk := bfsRun_inv_any cs w col hWF k (initBfs cs w col) hinit
    exact ⟨hk.1.nodup, hk.1.queueSubV⟩

theorem floodfill_terminates_witness :
    WFCells exBoard4 ∧
      ((∀ f, bfsFuel exBoard4 (ownedIdsOf exBoard4 .player) ≤ f →
        bfsRun .player ("yellowgreen") f (initBfs exBoard4 .player ("yellowgreen")) =
          bfsRun .player ("yellowgreen") (bfsFuel exBoard4 (ownedIdsOf exBoard4 .player))
            (initBfs exBoard4 .player ("yellowgreen")) ∧
        (bfsRun .player ("yellowgreen") f (initBfs exBoard4 .player ("yellowgreen"))).queue = []) ∧
      (∀ k, (bfsRun .player ("yellowgreen") k
          (initBfs exBoard4 .player ("yellowgreen"))).queue.Nodup ∧
        ∀ j ∈ (bfsRun .player ("yellowgreen") k
            (initBfs exBoard4 .player ("yellowgreen"))).queue,
          j ∈ (bfsRun .player ("yellowgreen") k
            (initBfs exBoard4 .player ("yellowgreen"))).visited)) :=
  ⟨by decide, floodfill_terminates exBoard4 .player ("yellowgreen") (by decide)⟩
